import Mathlib

/-! minimal-image-blur: a shallow embedding of `src/main.cpp`

The program loads a TGA file into `data`, reads five header fields, rejects every image type
other than 2 and 3, runs a one-dimensional sliding-window box blur over the flattened pixel
stream into a fresh buffer `dst`, and writes a file.

Modelling conventions.

* A byte is a `Fin 256`; `size_t` is 64 bits wide and its arithmetic is reduced modulo `2 ^ 64`;
  `int` is 32 bits wide, two's complement.
* `float` and `double` values are the rationals they denote.  Every arithmetic operation rounds
  its exact result to the nearest value with 24 (`float`) or 53 (`double`) significant bits, ties
  to even (`fpRound`).  Exponent range (overflow, subnormals) and NaN are outside the model: the
  accumulators of the blur pass stay far inside the normal range.
* Indexing a `std::vector` or `std::span` is unchecked in the source.  The model reads byte 0 at
  an index past the end of `data`, drops a store past the end of `dst`, and records every index
  read or stored in a trace, so that statements about which bytes are touched can be made.
* File system actions (`fopen`, `fread`, `fwrite`) are taken to succeed; the model starts with
  the file contents in `data` and ends with the bytes handed to `fwrite`.
-/

namespace TgaBlur

/-! ## Machine arithmetic -/

/-- One `uint8_t`. -/
abbrev Byte := Fin 256

/-- Number of values of `size_t` (64 bits). -/
def SIZE_MOD : ℕ := 18446744073709551616

/-- Addition of two `size_t` values. -/
def sizeAdd (a b : ℕ) : ℕ := (a + b) % SIZE_MOD

/-- Subtraction of two `size_t` values (both below `SIZE_MOD`). -/
def sizeSub (a b : ℕ) : ℕ := (a + SIZE_MOD - b) % SIZE_MOD

/-- Multiplication of two `size_t` values. -/
def sizeMul (a b : ℕ) : ℕ := (a * b) % SIZE_MOD

/-- Multiplication of two `int` values.  The operands of `image_height * image_width` are
`uint16_t`, promoted to `int`; a product outside the `int` range is undefined behaviour in C++,
and the model gives the two's complement result of the 32-bit multiplication. -/
def intMul (a b : ℤ) : ℤ := (a * b + 2147483648) % 4294967296 - 2147483648

/-- Conversion of an `int` to `size_t` (sign extension, i.e. reduction modulo `2 ^ 64`). -/
def intToSize (z : ℤ) : ℕ := (z % (SIZE_MOD : ℤ)).toNat

/-- Round to the nearest integer, ties to the even one. -/
def roundTiesEven (x : ℚ) : ℤ :=
  let f := ⌊x⌋
  let d := x - f
  if d < 1/2 then f else if 1/2 < d then f + 1 else if f % 2 = 0 then f else f + 1

/-- Round a rational to the nearest binary floating point value with `prec` significant bits
(round to nearest, ties to even): 24 for `float`, 53 for `double`. -/
def fpRound (prec : ℕ) (q : ℚ) : ℚ :=
  if q = 0 then 0 else
    let u : ℚ := (2:ℚ) ^ (Int.log 2 |q| - ((prec : ℤ) - 1))
    (roundTiesEven (q / u) : ℚ) * u

/-- The function `std::round`: nearest integer, halfway cases away from zero. -/
def roundHalfAway (x : ℚ) : ℤ :=
  if 0 ≤ x then ⌊x + 1/2⌋ else -⌊-x + 1/2⌋

/-- Conversion `static_cast<uint8_t>` of an integral value: reduction modulo 256 (the value is
in `0..255` wherever the blur pass stores a byte). -/
def toUInt8 (z : ℤ) : Byte := ⟨(z % 256).toNat, by omega⟩

/-- Conversion `static_cast<size_t>` of a floating point value: truncation toward zero. -/
def floatToSize (x : ℚ) : ℕ := (if 0 ≤ x then ⌊x⌋ else -⌊-x⌋).toNat % SIZE_MOD

/-- A counting loop `for (i = lo; i < hi; ++i) body`, whose body changes neither `i` nor `hi`. -/
def forRange {σ : Type} (lo hi : ℕ) (body : ℕ → σ → σ) (s : σ) : σ :=
  (List.range' lo (hi - lo)).foldl (fun st i => body i st) s

/-! ## Header fields (lines 36 to 48 of `main.cpp`) -/

/-- The element `data[i]`, as a number. -/
def byteAt (data : List Byte) (i : ℕ) : ℕ := (data.getD i 0).val

/-- The load `*reinterpret_cast<uint16_t*>(&data[i])` on the little-endian build platform. -/
def readU16 (data : List Byte) (i : ℕ) : ℕ := byteAt data i + 256 * byteAt data (i + 1)

/-- The constant `header_size`. -/
def header_size : ℕ := 18

/-- The local `image_id_size = data[0]`. -/
def image_id_size (data : List Byte) : ℕ := byteAt data 0

/-- The local `image_type = data[sizeof(uint8_t) * 2]`. -/
def image_type (data : List Byte) : ℕ := byteAt data (1 * 2)

/-- The local `image_width`, loaded at `sizeof(uint8_t) * 4 + sizeof(uint16_t) * 4`. -/
def image_width (data : List Byte) : ℕ := readU16 data (1 * 4 + 2 * 4)

/-- The local `image_height`, loaded at `sizeof(uint8_t) * 4 + sizeof(uint16_t) * 5`. -/
def image_height (data : List Byte) : ℕ := readU16 data (1 * 4 + 2 * 5)

/-- The local `bits_per_pixel = data[sizeof(uint8_t) * 4 + sizeof(uint16_t) * 6]`. -/
def bits_per_pixel (data : List Byte) : ℕ := byteAt data (1 * 4 + 2 * 6)

/-- The value of `image_height * image_width` stored in the `size_t` local `num_pixels`: the
product is formed in `int` and then converted. -/
def pixelProduct (a b : ℕ) : ℕ := intToSize (intMul (a : ℤ) (b : ℤ))

/-- The local `num_pixels = image_height * image_width`. -/
def num_pixels (data : List Byte) : ℕ := pixelProduct (image_height data) (image_width data)

/-- The local `bytes_per_pixel = bits_per_pixel / 8`. -/
def bytes_per_pixel (data : List Byte) : ℕ := bits_per_pixel data / 8

/-- The local `image_data_offset = header_size + image_id_size`. -/
def image_data_offset (data : List Byte) : ℕ := sizeAdd header_size (image_id_size data)

/-- The local `image_data_size = num_pixels * bytes_per_pixel`. -/
def image_data_size (data : List Byte) : ℕ := sizeMul (num_pixels data) (bytes_per_pixel data)

/-- The span `src = {&data[image_data_offset], image_data_size}`: a base pointer into `data` and
a length.  Element `i` is the byte `i` places after the base. -/
structure Span where
  base : ℕ
  size : ℕ

/-- The span `src` built by `main`. -/
def src (data : List Byte) : Span := ⟨image_data_offset data, image_data_size data⟩

/-- The unchecked element access `span[i]` into the vector `data`. -/
def Span.read (s : Span) (data : List Byte) (i : ℕ) : Byte := data.getD (s.base + i) 0

/-! ## The blur pass (lines 56 to 88) -/

/-- The local `blur_range = static_cast<size_t>(blur_factor * 150.f)`; the product is a `float`
multiplication. -/
def blur_range (blur_factor : ℚ) : ℕ := floatToSize (fpRound 24 (blur_factor * 150))

/-- The lambda `get_buffer_offset`. -/
def get_buffer_offset (bytes_per_pixel pixel_idx channel_idx : ℕ) : ℕ :=
  sizeAdd (sizeMul pixel_idx bytes_per_pixel) channel_idx

/-- The variables of the blur pass: the accumulators `row_total` (an array of 4 `double`), the
buffer `dst`, and the traces of the indices read from `src` and stored to `dst`. -/
structure BlurState where
  row_total : List ℚ
  dst : List Byte
  reads : List ℕ
  writes : List ℕ

/-- Body of the inner seeding loop (lines 70 and 71). -/
def seedStep (bytes_per_pixel : ℕ) (src : ℕ → Byte) (px_idx ch_idx : ℕ) (st : BlurState) :
    BlurState :=
  let buffer_offset := get_buffer_offset bytes_per_pixel px_idx ch_idx
  { st with
    row_total := st.row_total.set ch_idx
      (fpRound 53 (st.row_total.getD ch_idx 0 + ((src buffer_offset).val : ℚ)))
    reads := st.reads ++ [buffer_offset] }

/-- Body of the inner loop of the main blur loop (lines 80 to 85). -/
def blurStep (bytes_per_pixel blur_range row_length : ℕ) (src : ℕ → Byte) (px_idx ch_idx : ℕ)
    (st : BlurState) : BlurState :=
  let buffer_offset := get_buffer_offset bytes_per_pixel px_idx ch_idx
  let mean := fpRound 53 (st.row_total.getD ch_idx 0 / fpRound 24 (row_length : ℚ))
  let dst := st.dst.set buffer_offset (toUInt8 (roundHalfAway mean))
  let off_out := get_buffer_offset bytes_per_pixel (sizeSub px_idx blur_range) ch_idx
  let row_total1 := st.row_total.set ch_idx
    (fpRound 53 (st.row_total.getD ch_idx 0 - ((src off_out).val : ℚ)))
  let off_in := get_buffer_offset bytes_per_pixel (sizeAdd (sizeAdd px_idx blur_range) 1) ch_idx
  let row_total2 := row_total1.set ch_idx
    (fpRound 53 (row_total1.getD ch_idx 0 + ((src off_in).val : ℚ)))
  { row_total := row_total2
    dst := dst
    reads := st.reads ++ [off_out, off_in]
    writes := st.writes ++ [buffer_offset] }

/-- The seeding loop (lines 66 to 73). -/
def seedLoop (bytes_per_pixel row_length : ℕ) (src : ℕ → Byte) (st : BlurState) : BlurState :=
  forRange 0 row_length
    (fun px_idx s => forRange 0 bytes_per_pixel (seedStep bytes_per_pixel src px_idx) s) st

/-- The main blur loop (lines 75 to 87); `pixel_count` is the value of
`image_width * image_height` in the loop bound. -/
def blurLoop (bytes_per_pixel pixel_count blur_range row_length : ℕ) (src : ℕ → Byte)
    (st : BlurState) : BlurState :=
  forRange blur_range (sizeSub pixel_count blur_range)
    (fun px_idx s =>
      forRange 0 bytes_per_pixel (blurStep bytes_per_pixel blur_range row_length src px_idx) s)
    st

/-- The blur pass: the block of lines 57 to 88, entered with the buffer `dst`. -/
def blurPass (bytes_per_pixel pixel_count blur_range : ℕ) (src : ℕ → Byte) (dst : List Byte) :
    BlurState :=
  let row_length := sizeAdd (sizeMul blur_range 2) 1
  blurLoop bytes_per_pixel pixel_count blur_range row_length src
    (seedLoop bytes_per_pixel row_length src
      { row_total := [0, 0, 0, 0], dst := dst, reads := [], writes := [] })

/-! ## The whole run -/

/-- What a completed run leaves behind: the buffer `dst`, the traces of the blur pass, and the
bytes handed to `fwrite` for the output file. -/
structure Run where
  dst : List Byte
  reads : List ℕ
  writes : List ℕ
  output : List Byte

/-- How `main` ends: `std::exit(EXIT_FAILURE)` from the `checkm` at a source line, or
`return EXIT_SUCCESS` after the output file has been written.  The check of line 43 is the only
exit that the source has between loading the file and writing the output.  A run that the
source leaves undefined (an access outside a buffer) or in which `dst` cannot be allocated has
no outcome of its own: the model follows it under the conventions stated at the top, and the
accesses outside a buffer show in the traces of its `Run`. -/
inductive Outcome where
  | exit_failure (line : ℕ)
  | exit_success (run : Run)

/-- The function `main` from line 36 on, for the file contents `data` and the `blur_factor`
returned by `parse_args`. -/
def main (data : List Byte) (blur_factor : ℚ) : Outcome :=
  if ¬ (image_type data = 2 ∨ image_type data = 3) then Outcome.exit_failure 43
  else
    let view := src data
    let dst : List Byte := List.replicate view.size 0
    let st := blurPass (bytes_per_pixel data)
      (pixelProduct (image_width data) (image_height data)) (blur_range blur_factor)
      (view.read data) dst
    Outcome.exit_success
      { dst := st.dst, reads := st.reads, writes := st.writes, output := data }

/-! ## Brute-force reference for the blur -/

/-- Sum of `f start`, ..., `f (start + len - 1)`. -/
def windowSum (f : ℕ → ℕ) (start : ℕ) : ℕ → ℕ
  | 0 => 0
  | len + 1 => windowSum f start len + f (start + len)

/-- Channel `c` of the pixel stream: the sample of pixel `k`. -/
def channel (bytes_per_pixel : ℕ) (src : ℕ → Byte) (c : ℕ) (k : ℕ) : ℕ :=
  (src (k * bytes_per_pixel + c)).val

/-- Brute-force blurred value of pixel `p`, channel `c`: the sum `S` of the `2 * r + 1` samples
centred at `p`, divided by the window width and rounded to the nearest integer, computed as
`(2 * S + (2 * r + 1)) div (2 * (2 * r + 1))`. -/
def bruteForceMean (bytes_per_pixel r : ℕ) (src : ℕ → Byte) (p c : ℕ) : ℕ :=
  (2 * windowSum (channel bytes_per_pixel src c) (p - r) (2 * r + 1) + (2 * r + 1)) /
    (2 * (2 * r + 1))

/-! ## Loop invariants -/

/-- State of the seeding loop on entry to the iteration for pixel `n`, channel `ch`, started
from `st0`: channels below `ch` hold the sum of the first `n + 1` samples, the others the sum of
the first `n`; `dst` and the store trace are untouched. -/
def SeedInv (bytes_per_pixel : ℕ) (src : ℕ → Byte) (st0 : BlurState) (n ch : ℕ)
    (st : BlurState) : Prop :=
  st.row_total.length = 4 ∧ st.dst = st0.dst ∧ st.writes = st0.writes ∧
  ∀ c, c < bytes_per_pixel → st.row_total.getD c 0 =
    ((windowSum (channel bytes_per_pixel src c) 0 (if c < ch then n + 1 else n) : ℕ) : ℚ)

/-- State of the main blur loop on entry to the iteration for pixel `p`, channel `ch`, entered
with the buffer `dst0`: the accumulators hold the sums of the current windows, every byte stored
so far is the brute-force mean, every other byte of `dst` is as in `dst0`, and the store trace
lies between pixel `r` and the current position. -/
def BlurInv (bytes_per_pixel r : ℕ) (src : ℕ → Byte) (dst0 : List Byte) (p ch : ℕ)
    (st : BlurState) : Prop :=
  st.row_total.length = 4 ∧ st.dst.length = dst0.length ∧
  (∀ c, c < bytes_per_pixel → st.row_total.getD c 0 =
    ((windowSum (channel bytes_per_pixel src c) (if c < ch then p + 1 - r else p - r)
      (2 * r + 1) : ℕ) : ℚ)) ∧
  (∀ q c, r ≤ q → c < bytes_per_pixel → (q < p ∨ (q = p ∧ c < ch)) →
    (st.dst[q * bytes_per_pixel + c]?).map Fin.val =
      some (bruteForceMean bytes_per_pixel r src q c)) ∧
  (∀ i, (i < r * bytes_per_pixel ∨ p * bytes_per_pixel + ch ≤ i) → st.dst[i]? = dst0[i]?) ∧
  (∀ i, i ∈ st.writes → r * bytes_per_pixel ≤ i ∧ i < p * bytes_per_pixel + ch)

/-- The part of the main loop's invariant that does not depend on the accumulators: on entry to
the iteration for pixel `p`, channel `ch`, the buffer has kept its length, every byte outside
the stretch from pixel `r` to the current position is as in `dst0`, and every store so far went
into that stretch. -/
def FrameInv (bytes_per_pixel r : ℕ) (dst0 : List Byte) (p ch : ℕ) (st : BlurState) : Prop :=
  st.dst.length = dst0.length ∧
  (∀ i, (i < r * bytes_per_pixel ∨ p * bytes_per_pixel + ch ≤ i) → st.dst[i]? = dst0[i]?) ∧
  (∀ i, i ∈ st.writes → r * bytes_per_pixel ≤ i ∧ i < p * bytes_per_pixel + ch)

/-! ## Concrete files -/

/-- A 4 x 1 grayscale image (type 3, 8 bits per pixel, no id field) with the pixel bytes
10, 50, 30, 40. -/
def fileGray4 : List Byte :=
  [0, 0, 3, 0, 0, 0, 0, 0, 0, 0, 0, 0, 4, 0, 1, 0, 8, 0, 10, 50, 30, 40]

/-- An 18-byte header whose bytes 8 to 11 (the origin fields of a TGA header) hold 7 and 9, and
whose bytes 12 to 15 hold the width 4 and the height 1. -/
def fileOrigin : List Byte :=
  [0, 0, 3, 0, 0, 0, 0, 0, 7, 0, 9, 0, 4, 0, 1, 0, 8, 0]

/-- An 18-byte header announcing a 65535 x 65535 grayscale image of 8 bits per pixel. -/
def fileHuge : List Byte :=
  [0, 0, 3, 0, 0, 0, 0, 0, 0, 0, 0, 0, 255, 255, 255, 255, 8, 0]

/-- A truncated file of 20 bytes: the header announces a 4 x 1 grayscale image of 8 bits per
pixel, and only the pixel bytes 10, 50 follow. -/
def fileShort : List Byte :=
  [0, 0, 3, 0, 0, 0, 0, 0, 0, 0, 0, 0, 4, 0, 1, 0, 8, 0, 10, 50]

/-- A 2 x 1 grayscale image with the pixel bytes 10, 20. -/
def fileGray2 : List Byte :=
  [0, 0, 3, 0, 0, 0, 0, 0, 0, 0, 0, 0, 2, 0, 1, 0, 8, 0, 10, 20]

/-- The file `fileGray4` with the image type 10 (run-length encoded true colour). -/
def fileRle : List Byte :=
  [0, 0, 10, 0, 0, 0, 0, 0, 0, 0, 0, 0, 4, 0, 1, 0, 8, 0, 10, 50, 30, 40]

/-- The scenario image: 4 x 1, grayscale, 8 bits per pixel, pixel bytes 10, 20, 30, 40. -/
def fileScenario : List Byte :=
  [0, 0, 3, 0, 0, 0, 0, 0, 0, 0, 0, 0, 4, 0, 1, 0, 8, 0, 10, 20, 30, 40]

/-- The bytes of `fileGray4` announced as a 2 x 2 image. -/
def fileGray2x2 : List Byte :=
  [0, 0, 3, 0, 0, 0, 0, 0, 0, 0, 0, 0, 2, 0, 2, 0, 8, 0, 10, 50, 30, 40]

/-- The bytes of `fileGray4` announced as a 1 x 4 image. -/
def fileGray1x4 : List Byte :=
  [0, 0, 3, 0, 0, 0, 0, 0, 0, 0, 0, 0, 1, 0, 4, 0, 8, 0, 10, 50, 30, 40]

/-- A 1 x 1 image of type 2 whose header announces 40 bits per pixel, followed by 5 pixel
bytes. -/
def fileDeep : List Byte :=
  [0, 0, 2, 0, 0, 0, 0, 0, 0, 0, 0, 0, 1, 0, 1, 0, 40, 0, 1, 2, 3, 4, 5]

/-! ## The blur factor argument (lines 158 to 167) -/

/-- A value of type `float`: a number, an infinity or a NaN. -/
inductive FloatVal where
  | finite (q : ℚ)
  | inf (negative : Bool)
  | nan

/-- The comparison `a < b` of two `float` values; it is false when either side is a NaN. -/
def FloatVal.lt : FloatVal → FloatVal → Bool
  | FloatVal.nan, _ => false
  | _, FloatVal.nan => false
  | FloatVal.finite a, FloatVal.finite b => decide (a < b)
  | FloatVal.finite _, FloatVal.inf negative => !negative
  | FloatVal.inf negative, FloatVal.finite _ => negative
  | FloatVal.inf a, FloatVal.inf b => a && !b

/-- What the library call `std::strtof(arg, &end)` hands back: the value, and the pointer
`end` as an index into `arg` (`none` for a null pointer).  The call itself belongs to the C
library; its result is an input of the model. -/
structure Strtof where
  value : FloatVal
  end_idx : Option ℕ

/-- The character `arg[i]` of a C string: past the last character stands the terminator. -/
def cstrAt (arg : List Char) (i : ℕ) : Char := arg.getD i (Char.ofNat 0)

/-- How the validation of the blur factor ends: with the message, the usage text and
`std::exit(EXIT_SUCCESS)`, or with the value that `parse_args` returns as `blur_factor`. -/
inductive BlurFactorResult where
  | exit_usage
  | accepted (blur_factor : FloatVal)

/-- The test of line 162,
`!end || *end != 0 || blur_factor < 0.f || blur_factor > 1.f`, on the result of `strtof`. -/
def blur_factor_invalid (arg : List Char) (r : Strtof) : Bool :=
  match r.end_idx with
  | none => true
  | some e =>
    cstrAt arg e != Char.ofNat 0 || r.value.lt (FloatVal.finite 0) ||
      (FloatVal.finite 1).lt r.value

/-- Lines 160 to 167 of `parse_args`, for the argument string `arg` and the result `r` of
`strtof` on it. -/
def parse_blur_factor (arg : List Char) (r : Strtof) : BlurFactorResult :=
  if blur_factor_invalid arg r then BlurFactorResult.exit_usage
  else BlurFactorResult.accepted r.value

/-! ## Floating point rounding -/

theorem roundTiesEven_intCast (n : ℤ) : roundTiesEven (n : ℚ) = n := by
  simp [roundTiesEven]

theorem roundTiesEven_err (x : ℚ) : |(roundTiesEven x : ℚ) - x| ≤ 1/2 := by
  have h1 : (⌊x⌋ : ℚ) ≤ x := Int.floor_le x
  have h2 : x < ⌊x⌋ + 1 := Int.lt_floor_add_one x
  unfold roundTiesEven
  simp only
  split_ifs with ha hb hc
  · rw [abs_le]; constructor <;> linarith
  · rw [abs_le]; push_cast; constructor <;> linarith
  · rw [abs_le]; constructor <;> linarith
  · rw [abs_le]; push_cast; constructor <;> linarith

theorem fpRound_zero (prec : ℕ) : fpRound prec 0 = 0 := by simp [fpRound]

/-- A natural number below `2 ^ prec` is a floating point value of precision `prec`. -/
theorem fpRound_natCast (prec n : ℕ) (hn : n < 2 ^ prec) : fpRound prec (n : ℚ) = n := by
  unfold fpRound
  split_ifs with h0
  · exact h0.symm
  · have habs : |(n : ℚ)| = n := abs_of_nonneg (Nat.cast_nonneg n)
    simp only [habs, Int.log_natCast]
    have hlog : Nat.log 2 n < prec := Nat.log_lt_of_lt_pow (by rintro rfl; simp at h0) hn
    obtain ⟨k, hk⟩ : ∃ k : ℕ, (Nat.log 2 n : ℤ) - ((prec : ℤ) - 1) = -(k : ℤ) :=
      ⟨prec - 1 - Nat.log 2 n, by omega⟩
    rw [hk, zpow_neg, zpow_natCast]
    have h2 : ((2:ℚ) ^ k) ≠ 0 := by positivity
    have : (n : ℚ) / ((2:ℚ) ^ k)⁻¹ = (((n * 2 ^ k : ℕ) : ℤ) : ℚ) := by
      field_simp
    rw [this, roundTiesEven_intCast]
    push_cast
    field_simp

/-- Rounding a positive value below `2 ^ k` moves it by at most half a unit in the last place. -/
theorem fpRound_err (prec : ℕ) (x : ℚ) (k : ℤ) (hx0 : 0 < x) (hx : x < 2 ^ k) :
    |fpRound prec x - x| ≤ 2 ^ (k - prec - 1) := by
  unfold fpRound
  rw [if_neg hx0.ne']
  simp only
  rw [abs_of_pos hx0]
  set e := Int.log 2 x with he
  have hle : ((2:ℕ):ℚ) ^ e ≤ x := Int.zpow_log_le_self (by norm_num) hx0
  have hek : e < k := by
    have : ((2:ℚ)) ^ e < 2 ^ k := lt_of_le_of_lt (by exact_mod_cast hle) hx
    exact (zpow_lt_zpow_iff_right₀ (by norm_num : (1:ℚ) < 2)).1 this
  set u : ℚ := (2:ℚ) ^ (e - ((prec:ℤ) - 1)) with hu
  have hupos : 0 < u := by positivity
  have h1 := roundTiesEven_err (x / u)
  have h2 : (roundTiesEven (x / u) : ℚ) * u - x = ((roundTiesEven (x / u) : ℚ) - x / u) * u := by
    field_simp
  rw [h2, abs_mul, abs_of_pos hupos]
  have h3 : u ≤ 2 ^ (k - prec) := by
    rw [hu]
    apply zpow_le_zpow_right₀ (by norm_num)
    omega
  have h4 : (2:ℚ) ^ (k - prec - 1) = 2 ^ (k - prec) / 2 := by
    rw [zpow_sub_one₀ (by norm_num)]; ring
  rw [h4]
  calc |(roundTiesEven (x / u) : ℚ) - x / u| * u ≤ 1/2 * u :=
        mul_le_mul_of_nonneg_right h1 hupos.le
    _ ≤ 1/2 * 2 ^ (k - prec) := by linarith
    _ = 2 ^ (k - prec) / 2 := by ring

theorem roundHalfAway_eq_of_near (y : ℚ) (k : ℕ) (h1 : (k : ℚ) - 1/2 < y) (h2 : y < k + 1/2) :
    roundHalfAway y = k := by
  unfold roundHalfAway
  split_ifs with h
  · rw [Int.floor_eq_iff]; push_cast; constructor <;> linarith
  · push_neg at h
    have hk : k = 0 := by
      by_contra hne
      have : (1:ℚ) ≤ k := by exact_mod_cast Nat.one_le_iff_ne_zero.2 hne
      linarith
    subst hk
    have h1' : -(1:ℚ) / 2 < y := by
      have h0 : ((0:ℕ):ℚ) = 0 := Nat.cast_zero
      rw [h0] at h1; linarith
    have : ⌊-y + 1/2⌋ = 0 := by
      rw [Int.floor_eq_iff]; push_cast; constructor <;> linarith
    rw [this]; simp

/-- For an odd width `w`, the exact mean `S / w` stays at least `1 / (2 * w)` away from the
halfway points on both sides of `(2 * S + w) div (2 * w)`: no tie can occur. -/
theorem mean_near (S w : ℕ) (hodd : w % 2 = 1) :
    (((2 * S + w) / (2 * w) : ℕ) : ℚ) - 1/2 + 1 / (2 * w) ≤ (S : ℚ) / w ∧
      (S : ℚ) / w ≤ (((2 * S + w) / (2 * w) : ℕ) : ℚ) + 1/2 - 1 / (2 * w) := by
  have hwpos : 0 < w := by omega
  have hwq : (0:ℚ) < w := by exact_mod_cast hwpos
  set k := (2 * S + w) / (2 * w) with hk
  have hdm := Nat.div_add_mod (2 * S + w) (2 * w)
  have hmlt : (2 * S + w) % (2 * w) < 2 * w := Nat.mod_lt _ (by omega)
  set m := (2 * S + w) % (2 * w) with hm
  rw [← hk] at hdm
  have hmodd : m % 2 = 1 := by
    have : (2 * w * k + m) % 2 = 1 := by rw [hdm]; omega
    have h2 : (2 * w * k) % 2 = 0 := by rw [Nat.mul_assoc]; exact Nat.mul_mod_right 2 _
    omega
  have hx : (S : ℚ) / w = k + ((m : ℚ) - w) / (2 * w) := by
    have : (2 * (w:ℚ) * k + m) = 2 * S + w := by exact_mod_cast hdm
    field_simp
    linear_combination (-(w:ℚ)) * this
  have hm1 : (1:ℚ) ≤ m := by exact_mod_cast (by omega : 1 ≤ m)
  have hm2 : (m:ℚ) ≤ 2 * w - 1 := by
    have : m + 1 ≤ 2 * w := by omega
    have : ((m + 1 : ℕ) : ℚ) ≤ ((2 * w : ℕ) : ℚ) := by exact_mod_cast this
    push_cast at this; linarith
  constructor
  · rw [hx]
    have : ((m:ℚ) - w) / (2 * w) = m / (2 * w) - 1/2 := by field_simp; ring
    rw [this]
    have : (1:ℚ) / (2 * w) ≤ m / (2 * w) :=
      div_le_div_of_nonneg_right hm1 (by positivity)
    linarith
  · rw [hx]
    have : ((m:ℚ) - w) / (2 * w) = 1/2 - (2 * w - m) / (2 * w) := by field_simp; ring
    rw [this]
    have : (1:ℚ) / (2 * w) ≤ (2 * w - m) / (2 * w) :=
      div_le_div_of_nonneg_right (by linarith) (by positivity)
    linarith

/-- The exact mean of an odd number of samples, rounded half away from zero, is
`(2 * S + w) div (2 * w)`. -/
theorem round_exact_mean (S w : ℕ) (hodd : w % 2 = 1) :
    roundHalfAway ((S : ℚ) / (w : ℚ)) = (((2 * S + w) / (2 * w) : ℕ) : ℤ) := by
  have hwq : (0:ℚ) < w := by exact_mod_cast (by omega : 0 < w)
  have hpos : (0:ℚ) < 1 / (2 * w) := by positivity
  obtain ⟨hlo, hhi⟩ := mean_near S w hodd
  apply roundHalfAway_eq_of_near <;> linarith

/-- The `double` quotient of a sum `S` of bytes by an odd window width `w`, passed through
`std::round`, is the exact rounded mean: the quotient is never within `1 / (2 * w)` of a
halfway point, and the rounding error of the division is far smaller. -/
theorem round_mean (S w : ℕ) (hodd : w % 2 = 1) (hS : S ≤ 255 * w) (hw : w < 2 ^ 24) :
    roundHalfAway (fpRound 53 ((S : ℚ) / (w : ℚ))) = (((2 * S + w) / (2 * w) : ℕ) : ℤ) := by
  have hwpos : 0 < w := by omega
  have hwq : (0:ℚ) < w := by exact_mod_cast hwpos
  obtain ⟨hlo, hhi⟩ := mean_near S w hodd
  have hinv : (1:ℚ) / (2 * w) > 2 ^ (-(25:ℤ)) := by
    have h24 : (w : ℚ) < 2 ^ 24 := by exact_mod_cast hw
    rw [gt_iff_lt, lt_div_iff₀ (by positivity)]
    norm_num
    linarith
  have hnear : |fpRound 53 ((S:ℚ) / w) - (S:ℚ) / w| < 2 ^ (-(25:ℤ)) := by
    rcases Nat.eq_zero_or_pos S with hS0 | hSpos
    · subst hS0
      simp only [Nat.cast_zero, zero_div, fpRound_zero, sub_self, abs_zero]
      positivity
    · have hxpos : (0:ℚ) < (S:ℚ) / w := by positivity
      have hxlt : (S:ℚ) / w < 2 ^ (8:ℤ) := by
        rw [div_lt_iff₀ hwq]
        have : (S:ℚ) ≤ 255 * w := by exact_mod_cast hS
        norm_num; linarith
      have herr := fpRound_err 53 _ 8 hxpos hxlt
      have : (2:ℚ) ^ ((8:ℤ) - (53:ℕ) - 1) < 2 ^ (-(25:ℤ)) := by norm_num
      linarith
  rw [abs_lt] at hnear
  apply roundHalfAway_eq_of_near
  · linarith [hnear.1]
  · linarith [hnear.2]

theorem mean_le (S w : ℕ) (hw : 0 < w) (hS : S ≤ 255 * w) : (2 * S + w) / (2 * w) ≤ 255 := by
  have : (2 * S + w) / (2 * w) < 256 := by
    rw [Nat.div_lt_iff_lt_mul (by omega)]
    nlinarith
  omega

theorem toUInt8_natCast (k : ℕ) (hk : k ≤ 255) : (toUInt8 (k : ℤ)).val = k := by
  simp only [toUInt8]
  omega

/-- The radius is the integer part of `blur_factor * 150` whenever that product is not within
`2 ^ (-17)` (half a unit in the last place of a `float` below 256) of an integer. -/
theorem blur_range_of_between (f : ℚ) (n : ℕ) (hn : n < 255)
    (hlo : (n : ℚ) + 2 ^ (-(17:ℤ)) ≤ f * 150) (hhi : f * 150 + 2 ^ (-(17:ℤ)) < n + 1) :
    blur_range f = n := by
  have hpos : (0:ℚ) < 2 ^ (-(17:ℤ)) := by positivity
  have hn0 : (0:ℚ) ≤ n := Nat.cast_nonneg n
  have hnq : (n:ℚ) < 255 := by exact_mod_cast hn
  have hx0 : 0 < f * 150 := by linarith
  have hx8 : f * 150 < 2 ^ (8:ℤ) := by norm_num; linarith
  have herr := fpRound_err 24 _ 8 hx0 hx8
  have he : (2:ℚ) ^ ((8:ℤ) - (24:ℕ) - 1) = 2 ^ (-(17:ℤ)) := by norm_num
  rw [he, abs_le] at herr
  have h1 : (n:ℚ) ≤ fpRound 24 (f * 150) := by linarith [herr.1]
  have h2 : fpRound 24 (f * 150) < n + 1 := by linarith [herr.2]
  have hfl : ⌊fpRound 24 (f * 150)⌋ = (n : ℤ) := by
    rw [Int.floor_eq_iff]; push_cast; exact ⟨h1, h2⟩
  unfold blur_range floatToSize
  rw [if_pos (by linarith), hfl, Int.toNat_ofNat]
  exact Nat.mod_eq_of_lt (by unfold SIZE_MOD; omega)

/-- Every blur factor that `parse_args` lets through (a value in `[0, 1]`) gives a radius of at
most 150. -/
theorem blur_range_le (f : ℚ) (h0 : 0 ≤ f) (h1 : f ≤ 1) : blur_range f ≤ 150 := by
  rcases eq_or_lt_of_le h0 with hz | hpos
  · subst hz
    simp [blur_range, fpRound_zero, floatToSize]
  · have hx0 : 0 < f * 150 := by positivity
    have hx8 : f * 150 < 2 ^ (8:ℤ) := by norm_num; linarith
    have herr := fpRound_err 24 _ 8 hx0 hx8
    have he : (2:ℚ) ^ ((8:ℤ) - (24:ℕ) - 1) < 1 := by norm_num
    rw [abs_le] at herr
    have h2 : fpRound 24 (f * 150) < 151 := by linarith [herr.2]
    unfold blur_range floatToSize
    split_ifs with hs
    · have hfl : ⌊fpRound 24 (f * 150)⌋ < 151 := by
        rw [Int.floor_lt]; exact_mod_cast h2
      have : (⌊fpRound 24 (f * 150)⌋).toNat ≤ 150 := by omega
      exact le_trans (Nat.mod_le _ _) this
    · have hfl : 0 ≤ ⌊-fpRound 24 (f * 150)⌋ := by
        rw [Int.le_floor]; push_cast; linarith
      have : (-⌊-fpRound 24 (f * 150)⌋).toNat = 0 := by omega
      rw [this]; simp

/-! ## Counting loops and machine arithmetic -/

theorem forRange_of_le {σ : Type} (lo hi : ℕ) (body : ℕ → σ → σ) (s : σ) (h : hi ≤ lo) :
    forRange lo hi body s = s := by
  simp [forRange, Nat.sub_eq_zero_of_le h]

/-- The invariant rule for a counting loop. -/
theorem forRange_invariant {σ : Type} (P : ℕ → σ → Prop) (hi : ℕ) (body : ℕ → σ → σ) :
    ∀ (n lo : ℕ) (s : σ), lo + n = hi → P lo s →
      (∀ i st, lo ≤ i → i < hi → P i st → P (i + 1) (body i st)) →
      P hi (forRange lo hi body s) := by
  intro n
  induction n with
  | zero =>
    intro lo s h h0 _
    have : lo = hi := by omega
    subst this
    simpa [forRange] using h0
  | succ n ih =>
    intro lo s h h0 hstep
    have hsub : hi - lo = (hi - (lo + 1)) + 1 := by omega
    have hunf : forRange lo hi body s = forRange (lo + 1) hi body (body lo s) := by
      simp [forRange, hsub, List.range'_succ]
    rw [hunf]
    exact ih (lo + 1) (body lo s) (by omega) (hstep lo s (le_refl _) (by omega) h0)
      (fun i st hi1 hi2 hP => hstep i st (by omega) hi2 hP)

theorem sizeAdd_eq (a b : ℕ) (h : a + b < SIZE_MOD) : sizeAdd a b = a + b := by
  unfold sizeAdd; exact Nat.mod_eq_of_lt h

theorem sizeMul_eq (a b : ℕ) (h : a * b < SIZE_MOD) : sizeMul a b = a * b := by
  unfold sizeMul; exact Nat.mod_eq_of_lt h

theorem sizeSub_eq (a b : ℕ) (hb : b ≤ a) (ha : a < SIZE_MOD) : sizeSub a b = a - b := by
  unfold sizeSub SIZE_MOD at *; omega

theorem get_buffer_offset_eq (bpp p c : ℕ) (h : p * bpp + c < SIZE_MOD) :
    get_buffer_offset bpp p c = p * bpp + c := by
  unfold get_buffer_offset
  rw [sizeMul_eq _ _ (by omega), sizeAdd_eq _ _ h]

theorem offset_inj (q q' b c c' : ℕ) (hc : c < b) (hc' : c' < b)
    (h : q * b + c = q' * b + c') : q = q' ∧ c = c' := by
  have h1 : (q * b + c) / b = q := by
    rw [Nat.add_comm, Nat.add_mul_div_right _ _ (by omega), Nat.div_eq_of_lt hc]; simp
  have h2 : (q' * b + c') / b = q' := by
    rw [Nat.add_comm, Nat.add_mul_div_right _ _ (by omega), Nat.div_eq_of_lt hc']; simp
  have : q = q' := by rw [← h1, ← h2, h]
  subst this
  exact ⟨rfl, by omega⟩

theorem getD_set_self (l : List ℚ) (i : ℕ) (a : ℚ) (h : i < l.length) :
    (l.set i a).getD i 0 = a := by
  simp [List.getD_eq_getElem?_getD, List.getElem?_set, h]

theorem getD_set_other (l : List ℚ) (i j : ℕ) (a : ℚ) (h : i ≠ j) :
    (l.set i a).getD j 0 = l.getD j 0 := by
  simp [List.getD_eq_getElem?_getD, List.getElem?_set, h]

/-! ## Window sums -/

theorem windowSum_le (f : ℕ → ℕ) (hf : ∀ k, f k ≤ 255) (start len : ℕ) :
    windowSum f start len ≤ 255 * len := by
  induction len with
  | zero => simp [windowSum]
  | succ n ih => simp only [windowSum]; have := hf (start + n); omega

/-- Sliding the window by one pixel drops the oldest sample and takes in the next one. -/
theorem windowSum_slide (f : ℕ → ℕ) (start len : ℕ) :
    windowSum f (start + 1) len + f start = windowSum f start len + f (start + len) := by
  induction len with
  | zero => simp [windowSum]
  | succ n ih =>
    simp only [windowSum]
    have : start + 1 + n = start + (n + 1) := by omega
    rw [this]; omega

theorem channel_le (bpp : ℕ) (src : ℕ → Byte) (c k : ℕ) : channel bpp src c k ≤ 255 := by
  unfold channel; omega

/-! ## The seeding loop -/

theorem seedStep_inv (bpp : ℕ) (src : ℕ → Byte) (st0 st : BlurState) (n ch : ℕ)
    (hbpp : bpp ≤ 4) (hch : ch < bpp) (hn : n < 2 ^ 24)
    (h : SeedInv bpp src st0 n ch st) :
    SeedInv bpp src st0 n (ch + 1) (seedStep bpp src n ch st) := by
  obtain ⟨hlen, hdst, hwr, hacc⟩ := h
  have hoff : get_buffer_offset bpp n ch = n * bpp + ch := by
    apply get_buffer_offset_eq
    have : n * bpp ≤ 2 ^ 24 * 4 := Nat.mul_le_mul hn.le hbpp
    unfold SIZE_MOD; omega
  refine ⟨by simp [seedStep, hlen], hdst, hwr, ?_⟩
  intro c hc
  simp only [seedStep, hoff]
  by_cases hcc : c = ch
  · subst hcc
    rw [getD_set_self _ _ _ (by omega), hacc c hc]
    simp only [lt_irrefl, if_false, Nat.lt_succ_self, if_true]
    have hsum : windowSum (channel bpp src c) 0 (n + 1) =
        windowSum (channel bpp src c) 0 n + (src (n * bpp + c)).val := by
      simp [windowSum, channel]
    rw [hsum]
    have hb := windowSum_le (channel bpp src c) (channel_le bpp src c) 0 n
    have hlt : windowSum (channel bpp src c) 0 n + (src (n * bpp + c)).val < 2 ^ 53 := by
      have := (src (n * bpp + c)).isLt
      omega
    have := fpRound_natCast 53 _ hlt
    push_cast at this ⊢
    exact this
  · rw [getD_set_other _ _ _ _ (Ne.symm hcc), hacc c hc]
    have : (c < ch + 1) = (c < ch) := by
      apply propext; constructor <;> intro h' <;> omega
    simp only [this]

theorem seedLoop_inv (bpp w : ℕ) (src : ℕ → Byte) (st0 : BlurState)
    (hbpp : bpp ≤ 4) (hw : w < 2 ^ 24) (h0 : st0.row_total = [0, 0, 0, 0]) :
    SeedInv bpp src st0 w 0 (seedLoop bpp w src st0) := by
  unfold seedLoop
  apply forRange_invariant (fun n st => SeedInv bpp src st0 n 0 st) w _ w 0 st0 (by omega)
  · refine ⟨by simp [h0], rfl, rfl, ?_⟩
    intro c hc
    have : c < 4 := by omega
    simp only [Nat.not_lt_zero, if_false, windowSum, Nat.cast_zero, h0]
    interval_cases c <;> rfl
  · intro n st _ hn hinv
    have hinner := forRange_invariant (fun ch s => SeedInv bpp src st0 n ch s) bpp
      (seedStep bpp src n) bpp 0 st (by omega) hinv
      (fun ch s _ hch hs => seedStep_inv bpp src st0 s n ch hbpp hch (by omega) hs)
    obtain ⟨hlen, hdst, hwr, hacc⟩ := hinner
    refine ⟨hlen, hdst, hwr, ?_⟩
    intro c hc
    rw [hacc c hc]
    simp [hc]

/-! ## The main blur loop -/

theorem blurStep_inv (bpp r N : ℕ) (src : ℕ → Byte) (dst0 : List Byte) (st : BlurState)
    (p ch : ℕ) (hbpp : bpp ≤ 4) (hch : ch < bpp) (hr : r < 2 ^ 23) (hN : N < 2 ^ 32)
    (hrp : r ≤ p) (hpN : p + r < N) (hlen0 : N * bpp ≤ dst0.length)
    (h : BlurInv bpp r src dst0 p ch st) :
    BlurInv bpp r src dst0 p (ch + 1) (blurStep bpp r (2 * r + 1) src p ch st) := by
  obtain ⟨hlen, hdlen, hacc, hdst, hframe, hwr⟩ := h
  have hpb : p * bpp + bpp ≤ N * bpp := by
    have : (p + 1) * bpp ≤ N * bpp := Nat.mul_le_mul_right _ (by omega)
    rw [Nat.add_mul, Nat.one_mul] at this; exact this
  have hNb : N * bpp ≤ 2 ^ 32 * 4 := Nat.mul_le_mul hN.le hbpp
  have hrb : r * bpp ≤ p * bpp := Nat.mul_le_mul_right _ hrp
  have hoff : get_buffer_offset bpp p ch = p * bpp + ch :=
    get_buffer_offset_eq _ _ _ (by unfold SIZE_MOD; omega)
  have hsub : sizeSub p r = p - r := sizeSub_eq _ _ hrp (by unfold SIZE_MOD; omega)
  have hoffOut : get_buffer_offset bpp (p - r) ch = (p - r) * bpp + ch := by
    apply get_buffer_offset_eq
    have : (p - r) * bpp ≤ p * bpp := Nat.mul_le_mul_right _ (by omega)
    unfold SIZE_MOD; omega
  have hadd : sizeAdd (sizeAdd p r) 1 = p + r + 1 := by
    rw [sizeAdd_eq p r (by unfold SIZE_MOD; omega), sizeAdd_eq _ _ (by unfold SIZE_MOD; omega)]
  have hoffIn : get_buffer_offset bpp (p + r + 1) ch = (p + r + 1) * bpp + ch := by
    apply get_buffer_offset_eq
    have : (p + r + 1) * bpp ≤ N * bpp := Nat.mul_le_mul_right _ (by omega)
    unfold SIZE_MOD; omega
  have hW := hacc ch hch
  simp only [lt_irrefl, if_false] at hW
  set f := channel bpp src ch with hf
  have hWle := windowSum_le f (channel_le bpp src ch) (p - r) (2 * r + 1)
  have hrowlen : fpRound 24 (((2 * r + 1 : ℕ)) : ℚ) = ((2 * r + 1 : ℕ) : ℚ) :=
    fpRound_natCast 24 _ (by omega)
  have hmean : (toUInt8 (roundHalfAway (fpRound 53
      (st.row_total.getD ch 0 / fpRound 24 (((2 * r + 1 : ℕ)) : ℚ))))).val =
      bruteForceMean bpp r src p ch := by
    rw [hrowlen, hW, round_mean _ _ (by omega) (by omega) (by omega)]
    rw [toUInt8_natCast _ (mean_le _ _ (by omega) (by omega))]
    rfl
  have hslide := windowSum_slide f (p - r) (2 * r + 1)
  have hidx : p - r + (2 * r + 1) = p + r + 1 := by omega
  have hidx2 : p - r + 1 = p + 1 - r := by omega
  rw [hidx, hidx2] at hslide
  have hfo : f (p - r) = (src ((p - r) * bpp + ch)).val := rfl
  have hfi : f (p + r + 1) = (src ((p + r + 1) * bpp + ch)).val := rfl
  have hfole : f (p - r) ≤ windowSum f (p - r) (2 * r + 1) := by
    have h1 := windowSum_slide f (p - r) (2 * r)
    have h2 : windowSum f (p - r) (2 * r + 1) =
        windowSum f (p - r) (2 * r) + f (p - r + 2 * r) := rfl
    omega
  have hnew : fpRound 53 (fpRound 53 (st.row_total.getD ch 0 - ((src ((p - r) * bpp + ch)).val : ℚ))
      + ((src ((p + r + 1) * bpp + ch)).val : ℚ)) =
      ((windowSum f (p + 1 - r) (2 * r + 1) : ℕ) : ℚ) := by
    rw [hW, ← hfo, ← hfi]
    have h1 : ((windowSum f (p - r) (2 * r + 1) : ℕ) : ℚ) - ((f (p - r) : ℕ) : ℚ) =
        ((windowSum f (p - r) (2 * r + 1) - f (p - r) : ℕ) : ℚ) := by
      rw [Nat.cast_sub hfole]
    rw [h1, fpRound_natCast 53 _ (by omega)]
    have h2 : ((windowSum f (p - r) (2 * r + 1) - f (p - r) : ℕ) : ℚ) + ((f (p + r + 1) : ℕ) : ℚ)
        = ((windowSum f (p + 1 - r) (2 * r + 1) : ℕ) : ℚ) := by
      rw [← Nat.cast_add]; congr 1; omega
    rw [h2]
    have hle2 := windowSum_le f (channel_le bpp src ch) (p + 1 - r) (2 * r + 1)
    exact fpRound_natCast 53 _ (by omega)
  have hstep : blurStep bpp r (2 * r + 1) src p ch st =
      { row_total := (st.row_total.set ch (fpRound 53 (st.row_total.getD ch 0 -
            ((src ((p - r) * bpp + ch)).val : ℚ)))).set ch
            ((windowSum f (p + 1 - r) (2 * r + 1) : ℕ) : ℚ)
        dst := st.dst.set (p * bpp + ch) (toUInt8 (roundHalfAway (fpRound 53
          (st.row_total.getD ch 0 / fpRound 24 (((2 * r + 1 : ℕ)) : ℚ)))))
        reads := st.reads ++ [(p - r) * bpp + ch, (p + r + 1) * bpp + ch]
        writes := st.writes ++ [p * bpp + ch] } := by
    simp only [blurStep, hoff, hsub, hoffOut, hadd, hoffIn]
    rw [getD_set_self _ _ _ (by omega), hnew]
  rw [hstep]
  refine ⟨by simp [hlen], by simp [hdlen], ?_, ?_, ?_, ?_⟩
  · intro c hc
    by_cases hcc : c = ch
    · subst hcc
      rw [getD_set_self _ _ _ (by simp; omega)]
      simp
    · rw [getD_set_other _ _ _ _ (Ne.symm hcc), getD_set_other _ _ _ _ (Ne.symm hcc),
        hacc c hc]
      have : (c < ch + 1) = (c < ch) := by
        apply propext; constructor <;> intro h' <;> omega
      simp only [this]
  · intro q c hq hc hqc
    by_cases hsame : q = p ∧ c = ch
    · obtain ⟨rfl, rfl⟩ := hsame
      simp only
      rw [List.getElem?_set, if_pos rfl, if_pos (by omega)]
      simp only [Option.map_some']
      rw [hmean]
    · have hne : p * bpp + ch ≠ q * bpp + c := by
        intro heq
        have := offset_inj p q bpp ch c hch hc heq
        exact hsame ⟨this.1.symm, this.2.symm⟩
      simp only
      rw [List.getElem?_set, if_neg hne]
      apply hdst q c hq hc
      rcases hqc with h1 | ⟨h1, h2⟩
      · exact Or.inl h1
      · right; refine ⟨h1, ?_⟩
        rcases Nat.lt_succ_iff_lt_or_eq.1 h2 with h3 | h3
        · exact h3
        · exact absurd ⟨h1, h3⟩ hsame
  · intro i hi
    have hne : p * bpp + ch ≠ i := by omega
    simp only
    rw [List.getElem?_set, if_neg hne]
    exact hframe i (by omega)
  · intro i hi
    simp only [List.mem_append, List.mem_singleton] at hi
    rcases hi with hi | hi
    · have := hwr i hi; omega
    · omega

theorem blurLoop_inv (bpp r N : ℕ) (src : ℕ → Byte) (dst0 : List Byte) (st : BlurState)
    (hbpp : bpp ≤ 4) (hr : r < 2 ^ 23) (hN : N < 2 ^ 32) (h2r : 2 * r + 1 ≤ N)
    (hlen0 : N * bpp ≤ dst0.length) (h : BlurInv bpp r src dst0 r 0 st) :
    BlurInv bpp r src dst0 (N - r) 0 (blurLoop bpp N r (2 * r + 1) src st) := by
  unfold blurLoop
  rw [sizeSub_eq N r (by omega) (by unfold SIZE_MOD; omega)]
  apply forRange_invariant (fun p s => BlurInv bpp r src dst0 p 0 s) (N - r) _ (N - r - r) r st
    (by omega) h
  intro p s hrp hp hinv
  have hinner := forRange_invariant (fun ch t => BlurInv bpp r src dst0 p ch t) bpp
    (blurStep bpp r (2 * r + 1) src p) bpp 0 s (by omega) hinv
    (fun ch t _ hch ht =>
      blurStep_inv bpp r N src dst0 t p ch hbpp hch hr hN hrp (by omega) hlen0 ht)
  obtain ⟨hlen, hdlen, hacc, hdst, hframe, hwr⟩ := hinner
  have hmul : (p + 1) * bpp = p * bpp + bpp := by rw [Nat.add_mul, Nat.one_mul]
  refine ⟨hlen, hdlen, ?_, ?_, ?_, ?_⟩
  · intro c hc
    rw [hacc c hc]
    simp [hc]
  · intro q c hq hc hqc
    apply hdst q c hq hc
    rcases hqc with h1 | ⟨_, h2⟩
    · rcases Nat.lt_succ_iff_lt_or_eq.1 h1 with h3 | h3
      · exact Or.inl h3
      · exact Or.inr ⟨h3, hc⟩
    · omega
  · intro i hi
    apply hframe i
    rw [hmul] at hi
    omega
  · intro i hi
    have := hwr i hi
    rw [hmul]
    omega

/-- The seeding loop neither touches `dst` nor stores anything. -/
theorem seedLoop_frame (bpp w : ℕ) (src : ℕ → Byte) (st0 : BlurState) :
    (seedLoop bpp w src st0).dst = st0.dst ∧ (seedLoop bpp w src st0).writes = st0.writes := by
  unfold seedLoop
  apply forRange_invariant
    (fun (_ : ℕ) (s : BlurState) => s.dst = st0.dst ∧ s.writes = st0.writes) w _ w 0 st0
    (by omega) ⟨rfl, rfl⟩
  intro n s _ _ hs
  exact forRange_invariant
    (fun (_ : ℕ) (t : BlurState) => t.dst = st0.dst ∧ t.writes = st0.writes) bpp
    (seedStep bpp src n) bpp 0 s (by omega) hs (fun ch t _ _ ht => ht)

/-- The state after the blur pass, for a window that fits: the invariant of the main loop at its
exit `p = N - r`. -/
theorem blurPass_inv (bpp r N : ℕ) (src : ℕ → Byte) (dst0 : List Byte)
    (hbpp : bpp ≤ 4) (hr : r < 2 ^ 23) (hN : N < 2 ^ 32) (h2r : 2 * r + 1 ≤ N)
    (hlen0 : N * bpp ≤ dst0.length) :
    BlurInv bpp r src dst0 (N - r) 0 (blurPass bpp N r src dst0) := by
  unfold blurPass
  have hrl : sizeAdd (sizeMul r 2) 1 = 2 * r + 1 := by
    rw [sizeMul_eq _ _ (by unfold SIZE_MOD; omega), sizeAdd_eq _ _ (by unfold SIZE_MOD; omega)]
    omega
  simp only [hrl]
  apply blurLoop_inv bpp r N src dst0 _ hbpp hr hN h2r hlen0
  obtain ⟨hlen, hdst, hwr, hacc⟩ :=
    seedLoop_inv bpp (2 * r + 1) src
      { row_total := [0, 0, 0, 0], dst := dst0, reads := [], writes := [] } hbpp (by omega) rfl
  refine ⟨hlen, by rw [hdst], ?_, ?_, ?_, ?_⟩
  · intro c hc
    rw [hacc c hc]
    simp
  · intro q c hq _ hqc
    omega
  · intro i _
    rw [hdst]
  · intro i hi
    rw [hwr] at hi
    simp at hi

/-- When the window does not fit but `r ≤ N`, the main loop runs no iteration: the pass leaves
`dst` as it was and stores nothing. -/
theorem blurPass_window_too_wide (bpp r N : ℕ) (src : ℕ → Byte) (dst0 : List Byte)
    (hrN : r ≤ N) (hN2 : N ≤ 2 * r) (hN : N < SIZE_MOD) :
    (blurPass bpp N r src dst0).dst = dst0 ∧ (blurPass bpp N r src dst0).writes = [] := by
  unfold blurPass blurLoop
  simp only
  rw [sizeSub_eq N r hrN hN, forRange_of_le _ _ _ _ (by omega)]
  exact seedLoop_frame bpp _ src _

/-! ## What the blur pass stores, whatever the accumulators hold -/

/-- A property that every iteration keeps holds after the loop. -/
theorem forRange_preserves {σ : Type} (P : σ → Prop) (lo hi : ℕ) (body : ℕ → σ → σ) (s : σ)
    (hstep : ∀ i st, P st → P (body i st)) (h0 : P s) : P (forRange lo hi body s) := by
  rcases Nat.lt_or_ge hi lo with h | h
  · rw [forRange_of_le _ _ _ _ h.le]; exact h0
  · exact forRange_invariant (fun _ st => P st) hi body (hi - lo) lo s (by omega) h0
      (fun i st _ _ hP => hstep i st hP)

/-- The blur pass never changes the length of `dst`. -/
theorem blurPass_dst_length (bpp N r : ℕ) (src : ℕ → Byte) (dst0 : List Byte) :
    (blurPass bpp N r src dst0).dst.length = dst0.length := by
  unfold blurPass blurLoop
  simp only
  apply forRange_preserves (fun (st : BlurState) => st.dst.length = dst0.length)
  · intro p st hst
    apply forRange_preserves (fun (st : BlurState) => st.dst.length = dst0.length)
    · intro ch t ht
      simp [blurStep, ht]
    · exact hst
  · rw [(seedLoop_frame bpp _ src _).1]

theorem blurStep_frame (bpp r w : ℕ) (src : ℕ → Byte) (dst0 : List Byte) (st : BlurState)
    (p ch : ℕ) (hrp : r ≤ p) (hoff : p * bpp + ch < SIZE_MOD)
    (h : FrameInv bpp r dst0 p ch st) :
    FrameInv bpp r dst0 p (ch + 1) (blurStep bpp r w src p ch st) := by
  obtain ⟨hdlen, hframe, hwr⟩ := h
  have hrb : r * bpp ≤ p * bpp := Nat.mul_le_mul_right _ hrp
  have hbo : get_buffer_offset bpp p ch = p * bpp + ch := get_buffer_offset_eq _ _ _ hoff
  refine ⟨by simp [blurStep, hdlen], ?_, ?_⟩
  · intro i hi
    have hne : p * bpp + ch ≠ i := by omega
    simp only [blurStep, hbo]
    rw [List.getElem?_set, if_neg hne]
    exact hframe i (by omega)
  · intro i hi
    simp only [blurStep, hbo, List.mem_append, List.mem_singleton] at hi
    rcases hi with hi | hi
    · have := hwr i hi; omega
    · omega

/-- The state after the blur pass, for a window that fits, as far as `dst` and the store trace
go; no bound on the number of channels or on the radius is needed. -/
theorem blurPass_frame (bpp r N : ℕ) (src : ℕ → Byte) (dst0 : List Byte)
    (h2r : 2 * r + 1 ≤ N) (hN : N < SIZE_MOD) (hNb : N * bpp < SIZE_MOD) :
    FrameInv bpp r dst0 (N - r) 0 (blurPass bpp N r src dst0) := by
  unfold blurPass blurLoop
  simp only
  rw [sizeSub_eq N r (by omega) hN]
  obtain ⟨hd, hw⟩ := seedLoop_frame bpp (sizeAdd (sizeMul r 2) 1) src
    { row_total := [0, 0, 0, 0], dst := dst0, reads := [], writes := [] }
  apply forRange_invariant (fun p s => FrameInv bpp r dst0 p 0 s) (N - r) _ (N - r - r) r _
    (by omega)
  · refine ⟨by rw [hd], fun i _ => by rw [hd], fun i hi => ?_⟩
    rw [hw] at hi
    simp at hi
  · intro p s hrp hp hinv
    have hpb : p * bpp + bpp ≤ N * bpp := by
      have : (p + 1) * bpp ≤ N * bpp := Nat.mul_le_mul_right _ (by omega)
      rw [Nat.add_mul, Nat.one_mul] at this; exact this
    obtain ⟨hdlen, hframe, hwr⟩ := forRange_invariant (fun ch t => FrameInv bpp r dst0 p ch t)
      bpp (blurStep bpp r _ src p) bpp 0 s (by omega) hinv
      (fun ch t _ hch ht => blurStep_frame bpp r _ src dst0 t p ch hrp (by omega) ht)
    have hmul : (p + 1) * bpp = p * bpp + bpp := by rw [Nat.add_mul, Nat.one_mul]
    refine ⟨hdlen, fun i hi => hframe i (by rw [hmul] at hi; omega), fun i hi => ?_⟩
    have := hwr i hi
    rw [hmul]; omega

/-! ## The run as a whole -/

theorem byteAt_lt (data : List Byte) (i : ℕ) : byteAt data i < 256 := by
  unfold byteAt; omega

/-- Inside the buffer, `byteAt` is the byte stored there. -/
theorem byteAt_eq_get (data : List Byte) (i : ℕ) (hi : i < data.length) :
    byteAt data i = (data.get ⟨i, hi⟩).val := by
  simp [byteAt, List.getD_eq_getElem?_getD, List.getElem?_eq_getElem hi]

theorem readU16_lt (data : List Byte) (i : ℕ) : readU16 data i < 65536 := by
  have h1 := byteAt_lt data i
  have h2 := byteAt_lt data (i + 1)
  unfold readU16; omega

theorem pixelProduct_lt (a b : ℕ) : pixelProduct a b < SIZE_MOD := by
  unfold pixelProduct intToSize SIZE_MOD
  omega

/-- The `int` product of the two dimensions is exact as long as it fits in an `int`. -/
theorem pixelProduct_eq (a b : ℕ) (h : a * b < 2147483648) : pixelProduct a b = a * b := by
  unfold pixelProduct intToSize intMul SIZE_MOD
  have h' : ((a * b : ℕ) : ℤ) < 2147483648 := by exact_mod_cast h
  have hz : ((a * b : ℕ) : ℤ) = (a:ℤ) * (b:ℤ) := by push_cast; rfl
  rw [← hz]
  generalize a * b = n at h' ⊢
  omega

/-- With an accepted image type, `main` runs the blur pass on the span `src` and a zeroed `dst`
of the same size, and hands the vector `data` to `fwrite`. -/
theorem main_of_supported (data : List Byte) (f : ℚ)
    (h : image_type data = 2 ∨ image_type data = 3) :
    main data f = Outcome.exit_success
      { dst := (blurPass (bytes_per_pixel data)
          (pixelProduct (image_width data) (image_height data)) (blur_range f)
          ((src data).read data) (List.replicate (src data).size 0)).dst
        reads := (blurPass (bytes_per_pixel data)
          (pixelProduct (image_width data) (image_height data)) (blur_range f)
          ((src data).read data) (List.replicate (src data).size 0)).reads
        writes := (blurPass (bytes_per_pixel data)
          (pixelProduct (image_width data) (image_height data)) (blur_range f)
          ((src data).read data) (List.replicate (src data).size 0)).writes
        output := data } := by
  unfold main
  rw [if_neg (not_not.2 h)]

theorem main_of_unsupported (data : List Byte) (f : ℚ)
    (h : ¬ (image_type data = 2 ∨ image_type data = 3)) :
    main data f = Outcome.exit_failure 43 := by
  unfold main
  rw [if_pos h]

theorem pixelProduct_comm (a b : ℕ) : pixelProduct a b = pixelProduct b a := by
  unfold pixelProduct; rw [show intMul (a:ℤ) (b:ℤ) = intMul (b:ℤ) (a:ℤ) by
    unfold intMul; rw [mul_comm]]

theorem main_dst_length (data : List Byte) (f : ℚ) (ρ : Run)
    (h : main data f = Outcome.exit_success ρ) : ρ.dst.length = (src data).size := by
  by_cases ht : image_type data = 2 ∨ image_type data = 3
  · rw [main_of_supported data f ht] at h
    injection h with h
    rw [← h]
    simp only
    rw [blurPass_dst_length, List.length_replicate]
  · rw [main_of_unsupported data f ht] at h
    cases h

theorem blur_range_small : blur_range (1 / 128) = 1 :=
  blur_range_of_between (1 / 128) 1 (by norm_num) (by norm_num) (by norm_num)

/-! ## The claims -/

/-- C1 (window invariant).  Let `src` be the bytes seen through the pixel view of a
`width` x `height` image with at most 4 bytes per pixel, let `dst0` be a buffer of the same size,
and let the radius `r` be below `2 ^ 23` (in `main` it is at most 150, see `blur_range_le`) with
`2 * r + 1` at most the number of pixels.  Then for every interior pixel `p` and channel `c` the
byte that the incremental pass leaves at `dst[p * bytes_per_pixel + c]` is the brute-force value
`(2 * S + (2 * r + 1)) div (2 * (2 * r + 1))` of the window sum `S`, and that value is the exact
mean `S / (2 * r + 1)` rounded to the nearest integer.  The pass is entered with the pixel count
`width * height`; `main` hands it the `int` product of the two, which is that number as long as
it is below `2 ^ 31` (`pixelProduct_eq`). -/
theorem blurPass_window_invariant (width height bpp r : ℕ) (src : ℕ → Byte) (dst0 : List Byte)
    (p c : ℕ) (hw : width < 65536) (hh : height < 65536) (hb : bpp ≤ 4) (hr : r < 2 ^ 23)
    (hwin : 2 * r + 1 ≤ width * height) (hlen : dst0.length = width * height * bpp)
    (hp1 : r ≤ p) (hp2 : p ≤ width * height - r - 1) (hc : c < bpp) :
    ((blurPass bpp (width * height) r src dst0).dst[p * bpp + c]?).map Fin.val =
        some (bruteForceMean bpp r src p c) ∧
      roundHalfAway ((windowSum (channel bpp src c) (p - r) (2 * r + 1) : ℚ) /
        ((2 * r + 1 : ℕ) : ℚ)) = (bruteForceMean bpp r src p c : ℤ) := by
  have hN : width * height < 2 ^ 32 := by
    have : width * height ≤ 65535 * 65535 := Nat.mul_le_mul (by omega) (by omega)
    omega
  obtain ⟨_, _, _, hdst, _, _⟩ :=
    blurPass_inv bpp r (width * height) src dst0 hb hr hN hwin (by omega)
  refine ⟨hdst p c hp1 hc (Or.inl (by omega)), ?_⟩
  exact round_exact_mean _ _ (by omega)

/-- Witness for C1: pixel 1 of the 4 x 1 image with the bytes 10, 50, 30, 40 and radius 1 gets
the value 30, the rounded mean of 10, 50 and 30. -/
theorem blurPass_window_invariant_witness :
    ((blurPass 1 (4 * 1) 1 ((src fileGray4).read fileGray4)
        [0, 0, 0, 0]).dst[1 * 1 + 0]?).map Fin.val = some 30 := by
  have h := (blurPass_window_invariant 4 1 1 1 ((src fileGray4).read fileGray4) [0, 0, 0, 0]
    1 0 (by decide) (by decide) (by decide) (by decide) (by decide) (by decide) (by decide)
    (by decide) (by decide)).1
  rw [h]
  decide

/-- C2 (encoder wiring), evaluated on the 4 x 1 image `fileGray4` with blur factor 1/128, which
gives the radius 1: the blur pass stores 30 at `dst[1]`, while the byte of the written output at
`image_data_offset + 1` is the input byte 50.  The output carries the original pixel bytes, not
the blurred buffer. -/
theorem output_keeps_original_pixels :
    image_data_offset fileGray4 = 18 ∧ blur_range (1 / 128) = 1 ∧
      ∃ ρ, main fileGray4 (1 / 128) = Outcome.exit_success ρ ∧
        (ρ.dst[1]?).map Fin.val = some 30 ∧ (ρ.output[18 + 1]?).map Fin.val = some 50 := by
  refine ⟨by decide, blur_range_small, _, main_of_supported fileGray4 _ (by decide), ?_, by decide⟩
  have hb : bytes_per_pixel fileGray4 = 1 := by decide
  have hN : pixelProduct (image_width fileGray4) (image_height fileGray4) = 4 := by decide
  have hs : (src fileGray4).size = 4 := by decide
  simp only [hb, hN, hs, blur_range_small]
  obtain ⟨_, _, _, hdst, _, _⟩ := blurPass_inv 1 1 4 ((src fileGray4).read fileGray4)
    (List.replicate 4 0) (by decide) (by decide) (by decide) (by decide) (by decide)
  have h := hdst 1 0 (by decide) (by decide) (Or.inl (by decide))
  simp only [Nat.one_mul, Nat.add_zero] at h
  rw [h]
  decide

/-- C3 (header preservation).  For every file with image type 2 or 3 the run completes, the
written output has the length of the input, and every byte at an offset outside the pixel-data
region (before `image_data_offset`, or from `image_data_offset + image_data_size` on) equals the
input byte at that offset. -/
theorem output_preserves_header (data : List Byte) (f : ℚ)
    (h : image_type data = 2 ∨ image_type data = 3) :
    ∃ ρ, main data f = Outcome.exit_success ρ ∧ ρ.output.length = data.length ∧
      ∀ i, (i < image_data_offset data ∨ image_data_offset data + image_data_size data ≤ i) →
        ρ.output[i]? = data[i]? :=
  ⟨_, main_of_supported data f h, rfl, fun _ _ => rfl⟩

/-- Witness for C3 on `fileGray4`. -/
theorem output_preserves_header_witness :
    ∃ ρ, main fileGray4 (1 / 128) = Outcome.exit_success ρ ∧
      ρ.output.length = fileGray4.length ∧
      ∀ i, (i < image_data_offset fileGray4 ∨
          image_data_offset fileGray4 + image_data_size fileGray4 ≤ i) →
        ρ.output[i]? = fileGray4[i]? :=
  output_preserves_header fileGray4 (1 / 128) (by decide)

/-- C4 as stated fails on `fileOrigin`: the decoder's width is 4 while bytes 8 and 9 hold 7, and
its height is 1 while bytes 10 and 11 hold 9. -/
theorem header_layout_counterexample :
    18 ≤ fileOrigin.length ∧
      ¬ (image_id_size fileOrigin = byteAt fileOrigin 0 ∧
        image_type fileOrigin = byteAt fileOrigin 2 ∧
        image_width fileOrigin = byteAt fileOrigin 8 + 256 * byteAt fileOrigin 9 ∧
        image_height fileOrigin = byteAt fileOrigin 10 + 256 * byteAt fileOrigin 11 ∧
        bits_per_pixel fileOrigin = byteAt fileOrigin 16) := by
  decide

/-- C4, amended (header layout).  For every file buffer of at least 18 bytes, `image_id_size` is
byte 0, `image_type` is byte 2, `image_width` is the little-endian 16-bit value of bytes 12 and
13, `image_height` is the little-endian 16-bit value of bytes 14 and 15, and `bits_per_pixel` is
byte 16. -/
theorem header_layout (data : List Byte) (h : 18 ≤ data.length) :
    image_id_size data = (data.get ⟨0, by omega⟩).val ∧
      image_type data = (data.get ⟨2, by omega⟩).val ∧
      image_width data = (data.get ⟨12, by omega⟩).val + 256 * (data.get ⟨13, by omega⟩).val ∧
      image_height data = (data.get ⟨14, by omega⟩).val + 256 * (data.get ⟨15, by omega⟩).val ∧
      bits_per_pixel data = (data.get ⟨16, by omega⟩).val := by
  refine ⟨byteAt_eq_get data 0 (by omega), byteAt_eq_get data 2 (by omega), ?_, ?_,
    byteAt_eq_get data 16 (by omega)⟩
  · show byteAt data 12 + 256 * byteAt data 13 = _
    rw [byteAt_eq_get data 12 (by omega), byteAt_eq_get data 13 (by omega)]
  · show byteAt data 14 + 256 * byteAt data 15 = _
    rw [byteAt_eq_get data 14 (by omega), byteAt_eq_get data 15 (by omega)]

/-- Witness for the amended C4 on `fileOrigin`: the width is 4 and the height is 1. -/
theorem header_layout_witness :
    image_width fileOrigin = 4 ∧ image_height fileOrigin = 1 := by
  have h := header_layout fileOrigin (by decide)
  exact ⟨h.2.2.1, h.2.2.2.1⟩

/-- C5 (pixel-data size), evaluated on the header `fileHuge` of a 65535 x 65535 image with one
byte per pixel: the exact product of the dimensions is 4294836225, but the `int` product wraps
to -131071, so that `num_pixels` and `image_data_size` are `2 ^ 64 - 131071`. -/
theorem num_pixels_wraps :
    image_width fileHuge = 65535 ∧ image_height fileHuge = 65535 ∧
      bits_per_pixel fileHuge / 8 = 1 ∧
      intMul 65535 65535 = -131071 ∧
      num_pixels fileHuge = 18446744073709420545 ∧
      image_data_size fileHuge = 18446744073709420545 ∧
      image_width fileHuge * image_height fileHuge * (bits_per_pixel fileHuge / 8) =
        4294836225 := by
  decide

/-- C7 (rejection of unsupported formats).  For every file of at least 18 bytes: if the image
type byte (byte 2) is neither 2 nor 3, `main` ends with `exit(EXIT_FAILURE)` at the check of
line 43, before the blur pass and before the output file is opened, so that the outcome has
neither a buffer nor an output; if it is 2 or 3, the check passes and the run completes. -/
theorem unsupported_type_rejected (data : List Byte) (f : ℚ) (hlen : 18 ≤ data.length) :
    (¬ ((data.get ⟨2, by omega⟩).val = 2 ∨ (data.get ⟨2, by omega⟩).val = 3) →
        main data f = Outcome.exit_failure 43) ∧
      (((data.get ⟨2, by omega⟩).val = 2 ∨ (data.get ⟨2, by omega⟩).val = 3) →
        ∃ ρ, main data f = Outcome.exit_success ρ ∧ ρ.output = data) := by
  have ht : image_type data = (data.get ⟨2, by omega⟩).val := byteAt_eq_get data 2 (by omega)
  rw [← ht]
  exact ⟨fun h => main_of_unsupported data f h, fun h => ⟨_, main_of_supported data f h, rfl⟩⟩

/-- Witness for C7: the run-length encoded `fileRle` is rejected at line 43, the grayscale
`fileGray4` is not. -/
theorem unsupported_type_rejected_witness :
    main fileRle (1 / 128) = Outcome.exit_failure 43 ∧
      ∃ ρ, main fileGray4 (1 / 128) = Outcome.exit_success ρ ∧ ρ.output = fileGray4 :=
  ⟨(unsupported_type_rejected fileRle (1 / 128) (by decide)).1 (by decide),
    (unsupported_type_rejected fileGray4 (1 / 128) (by decide)).2 (by decide)⟩

/-- C9 as stated fails on the 2 x 1 image `fileGray2` with blur factor 1/128: the radius is 1,
so the window of 3 pixels is wider than the 2 pixels of the image, and yet the run does not
fail, and the seeding loop has read the pixel slots 0, 1 and 2. -/
theorem invalid_radius_counterexample :
    num_pixels fileGray2 = 2 ∧ blur_range (1 / 128) = 1 ∧
      ∃ ρ, main fileGray2 (1 / 128) = Outcome.exit_success ρ ∧ ρ.reads = [0, 1, 2] := by
  refine ⟨by decide, blur_range_small, _, main_of_supported fileGray2 _ (by decide), ?_⟩
  have hb : bytes_per_pixel fileGray2 = 1 := by decide
  have hN : pixelProduct (image_width fileGray2) (image_height fileGray2) = 2 := by decide
  have h3 : sizeAdd (sizeMul 1 2) 1 = 3 := by decide
  have h1 : sizeSub 2 1 = 1 := by decide
  have o0 : get_buffer_offset 1 0 0 = 0 := by decide
  have o1 : get_buffer_offset 1 1 0 = 1 := by decide
  have o2 : get_buffer_offset 1 2 0 = 2 := by decide
  simp only [hb, hN, blur_range_small, blurPass, blurLoop, seedLoop, h3, h1]
  rw [forRange_of_le _ _ _ _ (le_refl 1)]
  simp [forRange, List.range', seedStep, o0, o1, o2]

/-- C9, amended (window wider than the image).  The blur pass has no check of the radius and
no error path.  For every file with image type 2 or 3 whose pixel count `N` and radius `r`
satisfy `r ≤ N` and `2 * r + 1 > N`, the run completes, the main loop runs no iteration, no
byte is stored to `dst`, and `dst` stays all zero. -/
theorem window_too_wide_not_rejected (data : List Byte) (f : ℚ)
    (h : image_type data = 2 ∨ image_type data = 3)
    (hrN : blur_range f ≤ num_pixels data) (hwin : 2 * blur_range f + 1 > num_pixels data) :
    ∃ ρ, main data f = Outcome.exit_success ρ ∧ ρ.writes = [] ∧
      ρ.dst = List.replicate (image_data_size data) 0 := by
  refine ⟨_, main_of_supported data f h, ?_⟩
  simp only
  have hN : num_pixels data = pixelProduct (image_width data) (image_height data) :=
    pixelProduct_comm _ _
  rw [hN] at hrN hwin
  obtain ⟨hd, hw⟩ := blurPass_window_too_wide (bytes_per_pixel data) (blur_range f)
    (pixelProduct (image_width data) (image_height data)) ((src data).read data)
    (List.replicate (src data).size 0) hrN (by omega) (pixelProduct_lt _ _)
  exact ⟨hw, hd⟩

/-- Witness for the amended C9 on `fileGray2` with radius 1. -/
theorem window_too_wide_not_rejected_witness :
    ∃ ρ, main fileGray2 (1 / 128) = Outcome.exit_success ρ ∧ ρ.writes = [] ∧
      ρ.dst = List.replicate (image_data_size fileGray2) 0 :=
  window_too_wide_not_rejected fileGray2 (1 / 128) (by decide)
    (by rw [blur_range_small]; decide) (by rw [blur_range_small]; decide)

/-- C10 (edge policy).  Let `dst0` be a buffer of the size of the pixel view of a
`width` x `height` image, and let `2 * r + 1` be at most the number `N` of pixels.  Then every
index stored by the blur pass belongs to a pixel from `r` to `N - r - 1`; every byte of a pixel
`p < r` or `p ≥ N - r` is as it was before the pass, which is 0 when the buffer was all zero;
and `dst` keeps its length.  In `main` the pass starts from the zeroed `dst`, and after the run
`dst` has the length of the span `src`.  The pass is entered with the pixel count
`width * height`, as in C1. -/
theorem blurPass_edge_policy (width height bpp r : ℕ) (src0 : ℕ → Byte) (dst0 : List Byte)
    (hw : width < 65536) (hh : height < 65536) (hb : bpp ≤ 31)
    (hwin : 2 * r + 1 ≤ width * height) (hlen : dst0.length = width * height * bpp) :
    (∀ i, i ∈ (blurPass bpp (width * height) r src0 dst0).writes →
        r * bpp ≤ i ∧ i < (width * height - r) * bpp) ∧
      (∀ p c, (p < r ∨ width * height - r ≤ p) → p < width * height → c < bpp →
        (blurPass bpp (width * height) r src0 dst0).dst[p * bpp + c]? = dst0[p * bpp + c]? ∧
        (dst0 = List.replicate (width * height * bpp) 0 →
          (blurPass bpp (width * height) r src0 dst0).dst[p * bpp + c]? = some 0)) ∧
      (blurPass bpp (width * height) r src0 dst0).dst.length = dst0.length ∧
      (∀ data f ρ, main data f = Outcome.exit_success ρ → ρ.dst.length = (src data).size) := by
  have hN : width * height ≤ 65535 * 65535 := Nat.mul_le_mul (by omega) (by omega)
  have hNb : width * height * bpp ≤ 65535 * 65535 * 31 := Nat.mul_le_mul hN hb
  obtain ⟨hdlen, hframe, hwr⟩ := blurPass_frame bpp r (width * height) src0 dst0 hwin
    (by unfold SIZE_MOD; omega) (by unfold SIZE_MOD; omega)
  refine ⟨fun i hi => by simpa using hwr i hi, ?_, hdlen, main_dst_length⟩
  intro p c hp hpN hc
  have hkeep : (blurPass bpp (width * height) r src0 dst0).dst[p * bpp + c]? =
      dst0[p * bpp + c]? := by
    apply hframe
    rcases hp with hp | hp
    · left
      have : (p + 1) * bpp ≤ r * bpp := Nat.mul_le_mul_right _ (by omega)
      rw [Nat.add_mul, Nat.one_mul] at this
      omega
    · right
      have : (width * height - r) * bpp ≤ p * bpp := Nat.mul_le_mul_right _ hp
      omega
  refine ⟨hkeep, fun hzero => ?_⟩
  rw [hkeep, hzero]
  have hin : p * bpp + c < width * height * bpp := by
    have : (p + 1) * bpp ≤ width * height * bpp := Nat.mul_le_mul_right _ (by omega)
    rw [Nat.add_mul, Nat.one_mul] at this
    omega
  rw [List.getElem?_eq_getElem (by simpa using hin)]
  simp

/-- Witness for C10: with radius 1 the last pixel of a 4 x 1 image keeps the value 0. -/
theorem blurPass_edge_policy_witness :
    (blurPass 1 (4 * 1) 1 ((src fileGray4).read fileGray4) [0, 0, 0, 0]).dst[3 * 1 + 0]? =
        some 0 ∧
      (blurPass 1 (4 * 1) 1 ((src fileGray4).read fileGray4) [0, 0, 0, 0]).dst.length = 4 := by
  have h := blurPass_edge_policy 4 1 1 1 ((src fileGray4).read fileGray4) [0, 0, 0, 0]
    (by decide) (by decide) (by decide) (by decide) (by decide)
  exact ⟨(h.2.1 3 0 (by decide) (by decide) (by decide)).2 (by decide), h.2.2.1⟩

/-! ## The claims, continued -/

/-- A byte of the buffer is determined by its numeric value. -/
theorem getElem?_of_map_val (l : List Byte) (i : ℕ) (v : Byte)
    (h : (l[i]?).map Fin.val = some v.val) : l[i]? = some v := by
  cases hx : l[i]? with
  | none => rw [hx] at h; cases h
  | some a =>
    rw [hx] at h
    simp only [Option.map_some', Option.some.injEq] at h
    rw [Fin.ext h]

/-- With radius 0 the brute-force mean of a pixel is its own sample. -/
theorem bruteForceMean_zero (bpp : ℕ) (src : ℕ → Byte) (p c : ℕ) :
    bruteForceMean bpp 0 src p c = (src (p * bpp + c)).val := by
  simp only [bruteForceMean, windowSum, channel, Nat.sub_zero, Nat.add_zero, Nat.zero_add,
    Nat.mul_zero]
  omega

/-- C11 (radius zero is the identity).  For every pixel buffer of `N = width * height ≥ 1`
pixels with at most 4 bytes per pixel and `blur_range = 0`, after the blur pass
`dst[i] = src[i]` for every byte index `i < N * bytes_per_pixel`. -/
theorem blurPass_radius_zero (width height bpp : ℕ) (src : ℕ → Byte) (dst0 : List Byte) (i : ℕ)
    (hw : width < 65536) (hh : height < 65536) (hb : bpp ≤ 4) (hN : 1 ≤ width * height)
    (hlen : dst0.length = width * height * bpp) (hi : i < width * height * bpp) :
    (blurPass bpp (width * height) 0 src dst0).dst[i]? = some (src i) := by
  have hN32 : width * height < 2 ^ 32 := by
    have : width * height ≤ 65535 * 65535 := Nat.mul_le_mul (by omega) (by omega)
    omega
  have hbpos : 0 < bpp := by
    rcases Nat.eq_zero_or_pos bpp with h | h
    · subst h; simp at hi
    · exact h
  obtain ⟨_, _, _, hdst, _, _⟩ :=
    blurPass_inv bpp 0 (width * height) src dst0 hb (by norm_num) hN32 (by omega) (by omega)
  have hq : i / bpp < width * height := (Nat.div_lt_iff_lt_mul hbpos).2 hi
  have hidx : i / bpp * bpp + i % bpp = i := Nat.div_add_mod' i bpp
  have h := hdst (i / bpp) (i % bpp) (Nat.zero_le _) (Nat.mod_lt _ hbpos) (Or.inl (by omega))
  rw [bruteForceMean_zero, hidx] at h
  exact getElem?_of_map_val _ _ _ h

/-- Witness for C11: byte 2 of the 4 x 1 image `fileGray4` is copied by a pass of radius 0. -/
theorem blurPass_radius_zero_witness :
    (blurPass 1 (4 * 1) 0 ((src fileGray4).read fileGray4) [0, 0, 0, 0]).dst[2]? = some 30 :=
  blurPass_radius_zero 4 1 1 ((src fileGray4).read fileGray4) [0, 0, 0, 0] 2
    (by decide) (by decide) (by decide) (by decide) (by decide) (by decide)

/-- C12 (concrete scenario).  For a 4 x 1 image with one byte per pixel whose pixel bytes are
10, 20, 30, 40 (whatever lies behind them in memory) and `blur_range = 1`, the blur pass leaves
`dst[1] = 20` and `dst[2] = 30`, and it neither stores to `dst[0]` or `dst[3]` nor changes
them. -/
theorem blurPass_scenario (src0 : ℕ → Byte) (dst0 : List Byte)
    (h0 : src0 0 = 10) (h1 : src0 1 = 20) (h2 : src0 2 = 30) (h3 : src0 3 = 40)
    (hlen : dst0.length = 4) :
    (blurPass 1 4 1 src0 dst0).dst[1]? = some 20 ∧
      (blurPass 1 4 1 src0 dst0).dst[2]? = some 30 ∧
      (blurPass 1 4 1 src0 dst0).dst[0]? = dst0[0]? ∧
      (blurPass 1 4 1 src0 dst0).dst[3]? = dst0[3]? ∧
      0 ∉ (blurPass 1 4 1 src0 dst0).writes ∧ 3 ∉ (blurPass 1 4 1 src0 dst0).writes := by
  obtain ⟨_, _, _, hdst, hframe, hwr⟩ :=
    blurPass_inv 1 1 4 src0 dst0 (by decide) (by decide) (by decide) (by decide) (by omega)
  have hm1 : bruteForceMean 1 1 src0 1 0 = (20 : Byte).val := by
    simp [bruteForceMean, windowSum, channel, h0, h1, h2]
    rfl
  have hm2 : bruteForceMean 1 1 src0 2 0 = (30 : Byte).val := by
    simp [bruteForceMean, windowSum, channel, h1, h2, h3]
    rfl
  have hd1 := hdst 1 0 (by decide) (by decide) (Or.inl (by decide))
  have hd2 := hdst 2 0 (by decide) (by decide) (Or.inl (by decide))
  rw [hm1] at hd1
  rw [hm2] at hd2
  refine ⟨getElem?_of_map_val _ _ _ hd1, getElem?_of_map_val _ _ _ hd2,
    hframe 0 (Or.inl (by decide)), hframe 3 (Or.inr (by decide)), ?_, ?_⟩
  · intro hmem
    have := hwr 0 hmem
    omega
  · intro hmem
    have := hwr 3 hmem
    omega

/-- Witness for C12 on the pixel view of `fileScenario` and a zeroed buffer. -/
theorem blurPass_scenario_witness :
    (blurPass 1 4 1 ((src fileScenario).read fileScenario) [0, 0, 0, 0]).dst[1]? = some 20 ∧
      (blurPass 1 4 1 ((src fileScenario).read fileScenario) [0, 0, 0, 0]).dst[2]? = some 30 :=
  have h := blurPass_scenario ((src fileScenario).read fileScenario) [0, 0, 0, 0]
    (by decide) (by decide) (by decide) (by decide) (by decide)
  ⟨h.1, h.2.1⟩

/-- A window sum lies between `len` times a lower and `len` times an upper bound of its
samples. -/
theorem windowSum_bounds (f : ℕ → ℕ) (lo hi start len : ℕ)
    (h : ∀ k, start ≤ k → k < start + len → lo ≤ f k ∧ f k ≤ hi) :
    lo * len ≤ windowSum f start len ∧ windowSum f start len ≤ hi * len := by
  induction len with
  | zero => simp [windowSum]
  | succ n ih =>
    have ih' := ih (fun k h1 h2 => h k h1 (by omega))
    have hk := h (start + n) (by omega) (by omega)
    simp only [windowSum, Nat.mul_succ]
    omega

/-- The rounded mean of `w` samples lies between any lower and upper bound of the samples. -/
theorem mean_between (S w lo hi : ℕ) (hw : 0 < w) (h1 : lo * w ≤ S) (h2 : S ≤ hi * w) :
    lo ≤ (2 * S + w) / (2 * w) ∧ (2 * S + w) / (2 * w) ≤ hi := by
  constructor
  · rw [Nat.le_div_iff_mul_le (by omega)]
    have : lo * (2 * w) = 2 * (lo * w) := by ring
    omega
  · have : (2 * S + w) / (2 * w) < hi + 1 := by
      rw [Nat.div_lt_iff_lt_mul (by omega)]
      have : (hi + 1) * (2 * w) = 2 * (hi * w) + 2 * w := by ring
      omega
    omega

/-- C16 (output stays in byte range).  For every interior pixel `p` and channel `c` of a pass
whose window fits, the byte stored in `dst` is the rounded mean itself (nothing is lost in the
conversion to a byte), it lies between any lower and upper bound of the `2 * r + 1` source bytes
of its window, hence between their minimum and maximum and in `0..255`, and when all bytes of
the window are equal it is that byte. -/
theorem blurPass_mean_in_range (width height bpp r : ℕ) (src : ℕ → Byte) (dst0 : List Byte)
    (p c : ℕ) (hw : width < 65536) (hh : height < 65536) (hb : bpp ≤ 4) (hr : r < 2 ^ 23)
    (hwin : 2 * r + 1 ≤ width * height) (hlen : dst0.length = width * height * bpp)
    (hp1 : r ≤ p) (hp2 : p ≤ width * height - r - 1) (hc : c < bpp) :
    ∃ v : Byte, (blurPass bpp (width * height) r src dst0).dst[p * bpp + c]? = some v ∧
      v.val = bruteForceMean bpp r src p c ∧ v.val ≤ 255 ∧
      (∀ lo hi : ℕ, (∀ k, p - r ≤ k → k ≤ p + r →
          lo ≤ (src (k * bpp + c)).val ∧ (src (k * bpp + c)).val ≤ hi) →
        lo ≤ v.val ∧ v.val ≤ hi) ∧
      ((∀ k, p - r ≤ k → k ≤ p + r → src (k * bpp + c) = src (p * bpp + c)) →
        v = src (p * bpp + c)) := by
  have hN : width * height < 2 ^ 32 := by
    have : width * height ≤ 65535 * 65535 := Nat.mul_le_mul (by omega) (by omega)
    omega
  obtain ⟨_, _, _, hdst, _, _⟩ :=
    blurPass_inv bpp r (width * height) src dst0 hb hr hN hwin (by omega)
  have h := hdst p c hp1 hc (Or.inl (by omega))
  have hbetween : ∀ lo hi : ℕ, (∀ k, p - r ≤ k → k ≤ p + r →
      lo ≤ (src (k * bpp + c)).val ∧ (src (k * bpp + c)).val ≤ hi) →
      lo ≤ bruteForceMean bpp r src p c ∧ bruteForceMean bpp r src p c ≤ hi := by
    intro lo hi hbnd
    obtain ⟨hs1, hs2⟩ := windowSum_bounds (channel bpp src c) lo hi (p - r) (2 * r + 1)
      (fun k hk1 hk2 => hbnd k hk1 (by omega))
    exact mean_between _ _ lo hi (by omega) hs1 hs2
  cases hx : (blurPass bpp (width * height) r src dst0).dst[p * bpp + c]? with
  | none => rw [hx] at h; cases h
  | some v =>
    rw [hx] at h
    simp only [Option.map_some', Option.some.injEq] at h
    refine ⟨v, rfl, h, by omega, fun lo hi hbnd => by rw [h]; exact hbetween lo hi hbnd, ?_⟩
    intro heq
    apply Fin.ext
    have := hbetween (src (p * bpp + c)).val (src (p * bpp + c)).val
      (fun k hk1 hk2 => by rw [heq k hk1 hk2]; exact ⟨le_refl _, le_refl _⟩)
    omega

/-- Witness for C16: pixel 1 of the 4 x 1 image `fileGray4` with radius 1 gets a byte between
10 and 50, the smallest and the largest of the bytes 10, 50, 30 of its window. -/
theorem blurPass_mean_in_range_witness :
    ∃ v : Byte, (blurPass 1 (4 * 1) 1 ((src fileGray4).read fileGray4)
        [0, 0, 0, 0]).dst[1 * 1 + 0]? = some v ∧ 10 ≤ v.val ∧ v.val ≤ 50 := by
  obtain ⟨v, hv, _, _, hb, _⟩ := blurPass_mean_in_range 4 1 1 1
    ((src fileGray4).read fileGray4) [0, 0, 0, 0] 1 0 (by decide) (by decide) (by decide)
    (by decide) (by decide) (by decide) (by decide) (by decide) (by decide)
  refine ⟨v, hv, hb 10 50 ?_⟩
  intro k hk1 hk2
  have hk : k = 0 ∨ k = 1 ∨ k = 2 := by omega
  rcases hk with rfl | rfl | rfl <;> decide

/-- The `int` product of the dimensions depends on them only through their product. -/
theorem pixelProduct_congr (a b c d : ℕ) (h : a * b = c * d) :
    pixelProduct a b = pixelProduct c d := by
  have hz : (a : ℤ) * (b : ℤ) = (c : ℤ) * (d : ℤ) := by exact_mod_cast h
  unfold pixelProduct intMul
  rw [hz]

/-- C17 (no reset at row boundaries).  Two files of image type 2 or 3 whose headers announce
dimensions with the same product `width * height`, with the same bits per pixel, the same id
length and the same bytes from the pixel data on, blurred with the same factor, end with
identical `dst` buffers (and identical traces): the pass sees width and height only through
the pixel count. -/
theorem main_depends_on_pixel_count (data1 data2 : List Byte) (f : ℚ)
    (ht1 : image_type data1 = 2 ∨ image_type data1 = 3)
    (ht2 : image_type data2 = 2 ∨ image_type data2 = 3)
    (hN : image_width data1 * image_height data1 = image_width data2 * image_height data2)
    (hb : bits_per_pixel data1 = bits_per_pixel data2)
    (hid : image_id_size data1 = image_id_size data2)
    (hpix : data1.drop (image_data_offset data1) = data2.drop (image_data_offset data2)) :
    ∃ ρ1 ρ2, main data1 f = Outcome.exit_success ρ1 ∧ main data2 f = Outcome.exit_success ρ2 ∧
      ρ1.dst = ρ2.dst ∧ ρ1.reads = ρ2.reads ∧ ρ1.writes = ρ2.writes := by
  refine ⟨_, _, main_of_supported data1 f ht1, main_of_supported data2 f ht2, ?_⟩
  have hbpp : bytes_per_pixel data1 = bytes_per_pixel data2 := by
    unfold bytes_per_pixel; rw [hb]
  have hprod : pixelProduct (image_width data1) (image_height data1) =
      pixelProduct (image_width data2) (image_height data2) := pixelProduct_congr _ _ _ _ hN
  have hoff : image_data_offset data1 = image_data_offset data2 := by
    unfold image_data_offset; rw [hid]
  have hsize : (src data1).size = (src data2).size := by
    show sizeMul (num_pixels data1) (bytes_per_pixel data1) =
      sizeMul (num_pixels data2) (bytes_per_pixel data2)
    unfold num_pixels
    rw [pixelProduct_comm (image_height data1), pixelProduct_comm (image_height data2), hprod,
      hbpp]
  have hread : (src data1).read data1 = (src data2).read data2 := by
    funext i
    show data1.getD (image_data_offset data1 + i) 0 = data2.getD (image_data_offset data2 + i) 0
    have h1 : (data1.drop (image_data_offset data1))[i]? =
        (data2.drop (image_data_offset data2))[i]? := by rw [hpix]
    rw [List.getElem?_drop, List.getElem?_drop] at h1
    rw [List.getD_eq_getElem?_getD, List.getD_eq_getElem?_getD, h1]
  simp only [hbpp, hprod, hsize, hread, and_self]

/-- Witness for C17: the bytes 10, 50, 30, 40 announced as 4 x 1, as 2 x 2 and as 1 x 4 blur
alike. -/
theorem main_depends_on_pixel_count_witness :
    (∃ ρ1 ρ2, main fileGray4 (1 / 128) = Outcome.exit_success ρ1 ∧
      main fileGray2x2 (1 / 128) = Outcome.exit_success ρ2 ∧
      ρ1.dst = ρ2.dst ∧ ρ1.reads = ρ2.reads ∧ ρ1.writes = ρ2.writes) ∧
    (∃ ρ1 ρ2, main fileGray4 (1 / 128) = Outcome.exit_success ρ1 ∧
      main fileGray1x4 (1 / 128) = Outcome.exit_success ρ2 ∧
      ρ1.dst = ρ2.dst ∧ ρ1.reads = ρ2.reads ∧ ρ1.writes = ρ2.writes) :=
  ⟨main_depends_on_pixel_count fileGray4 fileGray2x2 (1 / 128) (by decide) (by decide)
      (by decide) (by decide) (by decide) (by decide),
    main_depends_on_pixel_count fileGray4 fileGray1x4 (1 / 128) (by decide) (by decide)
      (by decide) (by decide) (by decide) (by decide)⟩

/-! ## The indices read by the blur pass -/

/-- A counting loop is the loop up to `m` followed by the loop from `m`. -/
theorem forRange_split {σ : Type} (lo m hi : ℕ) (body : ℕ → σ → σ) (s : σ)
    (h1 : lo ≤ m) (h2 : m ≤ hi) :
    forRange lo hi body s = forRange m hi body (forRange lo m body s) := by
  unfold forRange
  have hlen : hi - lo = (hi - m) + (m - lo) := by omega
  have hm : m = lo + (m - lo) := by omega
  rw [hlen, ← List.range'_append_1, List.foldl_append, ← hm]

theorem forRange_first {σ : Type} (lo hi : ℕ) (body : ℕ → σ → σ) (s : σ) (h : lo < hi) :
    forRange lo hi body s = forRange (lo + 1) hi body (body lo s) := by
  have hsub : hi - lo = (hi - (lo + 1)) + 1 := by omega
  simp [forRange, hsub, List.range'_succ]

/-- What iteration `i` establishes and every iteration keeps holds after the loop. -/
theorem forRange_establish {σ : Type} (P : σ → Prop) (lo hi i : ℕ) (body : ℕ → σ → σ) (s : σ)
    (h1 : lo ≤ i) (h2 : i < hi) (hset : ∀ st, P (body i st))
    (hkeep : ∀ j st, P st → P (body j st)) : P (forRange lo hi body s) := by
  rw [forRange_split lo i hi body s h1 h2.le, forRange_first i hi body _ h2]
  exact forRange_preserves P _ _ body _ hkeep (hset _)

/-- The seeding loop reads every channel of each of its `w` pixels. -/
theorem seedLoop_reads (bpp w : ℕ) (src : ℕ → Byte) (st0 : BlurState) (px ch : ℕ)
    (hpx : px < w) (hch : ch < bpp) :
    get_buffer_offset bpp px ch ∈ (seedLoop bpp w src st0).reads := by
  unfold seedLoop
  apply forRange_establish (fun (st : BlurState) => get_buffer_offset bpp px ch ∈ st.reads)
    0 w px _ st0 (Nat.zero_le _) hpx
  · intro st
    apply forRange_establish (fun (t : BlurState) => get_buffer_offset bpp px ch ∈ t.reads)
      0 bpp ch _ st (Nat.zero_le _) hch
    · intro t
      simp [seedStep]
    · intro j t ht
      simp only [seedStep, List.mem_append]
      exact Or.inl ht
  · intro j st hst
    apply forRange_preserves (fun (t : BlurState) => get_buffer_offset bpp px ch ∈ t.reads)
    · intro k t ht
      simp only [seedStep, List.mem_append]
      exact Or.inl ht
    · exact hst

/-- The main loop never removes an index from the read trace. -/
theorem blurLoop_reads_mono (bpp N r w : ℕ) (src : ℕ → Byte) (st : BlurState) (i : ℕ)
    (h : i ∈ st.reads) : i ∈ (blurLoop bpp N r w src st).reads := by
  unfold blurLoop
  apply forRange_preserves (fun (t : BlurState) => i ∈ t.reads)
  · intro p t ht
    apply forRange_preserves (fun (u : BlurState) => i ∈ u.reads)
    · intro c u hu
      simp only [blurStep, List.mem_append]
      exact Or.inl hu
    · exact ht
  · exact h

/-- Whenever the window fits and there is at least one channel, the last iteration of the main
loop (pixel `N - r - 1`) reads the sample of pixel `N`, channel 0, at index
`N * bytes_per_pixel`: one pixel past the end of a view of `N` pixels. -/
theorem blurPass_reads_past_view (bpp N r : ℕ) (src : ℕ → Byte) (dst0 : List Byte)
    (hb : 1 ≤ bpp) (hwin : 2 * r + 1 ≤ N) (hN : N * bpp + bpp < SIZE_MOD) :
    N * bpp ∈ (blurPass bpp N r src dst0).reads := by
  have hNb : N ≤ N * bpp := Nat.le_mul_of_pos_right N hb
  have hNlt : N < SIZE_MOD := by omega
  unfold blurPass blurLoop
  simp only
  rw [sizeSub_eq N r (by omega) hNlt]
  apply forRange_establish (fun (t : BlurState) => N * bpp ∈ t.reads) r (N - r) (N - r - 1)
    _ _ (by omega) (by omega)
  · intro st
    apply forRange_establish (fun (t : BlurState) => N * bpp ∈ t.reads) 0 bpp 0 _ st
      (le_refl _) (by omega)
    · intro t
      have hadd1 : sizeAdd (N - r - 1) r = N - 1 := by
        rw [sizeAdd_eq _ _ (by omega)]
        omega
      have hadd : sizeAdd (sizeAdd (N - r - 1) r) 1 = N := by
        rw [hadd1, sizeAdd_eq _ _ (by omega)]
        omega
      have hoff : get_buffer_offset bpp N 0 = N * bpp :=
        get_buffer_offset_eq _ _ _ (by omega)
      simp [blurStep, hadd, hoff]
    · intro j t ht
      simp only [blurStep, List.mem_append]
      exact Or.inl ht
  · intro j st hst
    apply forRange_preserves (fun (t : BlurState) => N * bpp ∈ t.reads)
    · intro k t ht
      simp only [blurStep, List.mem_append]
      exact Or.inl ht
    · exact hst

/-- A property that every iteration with an index in range keeps holds after the loop. -/
theorem forRange_preserves_indexed {σ : Type} (P : σ → Prop) (lo hi : ℕ) (body : ℕ → σ → σ)
    (s : σ) (hstep : ∀ i st, lo ≤ i → i < hi → P st → P (body i st)) (h0 : P s) :
    P (forRange lo hi body s) := by
  rcases Nat.lt_or_ge hi lo with h | h
  · rw [forRange_of_le _ _ _ _ h.le]; exact h0
  · exact forRange_invariant (fun _ st => P st) hi body (hi - lo) lo s (by omega) h0 hstep

/-- Apart from that pixel, nothing is read past the view: for a window that fits, every index
read by the blur pass is below `N * bytes_per_pixel + bytes_per_pixel`. -/
theorem blurPass_reads_bound (bpp N r : ℕ) (src : ℕ → Byte) (dst0 : List Byte)
    (hwin : 2 * r + 1 ≤ N) (hN : N < SIZE_MOD) (hNb : N * bpp + bpp < SIZE_MOD) :
    ∀ i, i ∈ (blurPass bpp N r src dst0).reads → i < N * bpp + bpp := by
  have hmul : ∀ q, q ≤ N → q * bpp ≤ N * bpp := fun q hq => Nat.mul_le_mul_right _ hq
  have hrl : sizeAdd (sizeMul r 2) 1 = 2 * r + 1 := by
    rw [sizeMul_eq _ _ (by omega), sizeAdd_eq _ _ (by omega)]
    omega
  unfold blurPass blurLoop seedLoop
  simp only [hrl]
  rw [sizeSub_eq N r (by omega) hN]
  apply forRange_preserves_indexed (fun (t : BlurState) => ∀ i, i ∈ t.reads → i < N * bpp + bpp)
  · intro p st hp1 hp2 hst
    apply forRange_preserves_indexed (fun (t : BlurState) => ∀ i, i ∈ t.reads → i < N * bpp + bpp)
    · intro c t _ hc ht i hi
      have h1 := hmul (p - r) (by omega)
      have h2 := hmul (p + r + 1) (by omega)
      have hsub : sizeSub p r = p - r := sizeSub_eq _ _ hp1 (by omega)
      have hadd1 : sizeAdd p r = p + r := sizeAdd_eq _ _ (by omega)
      have hadd : sizeAdd (sizeAdd p r) 1 = p + r + 1 := by
        rw [hadd1, sizeAdd_eq _ _ (by omega)]
      have ho1 : get_buffer_offset bpp (p - r) c = (p - r) * bpp + c :=
        get_buffer_offset_eq _ _ _ (by omega)
      have ho2 : get_buffer_offset bpp (p + r + 1) c = (p + r + 1) * bpp + c :=
        get_buffer_offset_eq _ _ _ (by omega)
      simp only [blurStep, hsub, hadd, ho1, ho2, List.mem_append, List.mem_cons,
        List.mem_singleton, List.not_mem_nil, or_false] at hi
      rcases hi with hi | hi | hi
      · exact ht i hi
      · omega
      · omega
    · exact hst
  · apply forRange_preserves_indexed (fun (t : BlurState) => ∀ i, i ∈ t.reads → i < N * bpp + bpp)
    · intro px st _ hpx hst
      apply forRange_preserves_indexed (fun (t : BlurState) => ∀ i, i ∈ t.reads → i < N * bpp + bpp)
      · intro c t _ hc ht i hi
        have h1 := hmul (px + 1) (by omega)
        rw [Nat.add_mul, Nat.one_mul] at h1
        have ho : get_buffer_offset bpp px c = px * bpp + c :=
          get_buffer_offset_eq _ _ _ (by omega)
        simp only [seedStep, ho, List.mem_append, List.mem_singleton] at hi
        rcases hi with hi | hi
        · exact ht i hi
        · omega
      · exact hst
    · intro i hi
      simp at hi

theorem blur_range_zero : blur_range 0 = 0 := by
  simp [blur_range, fpRound_zero, floatToSize]

/-- C15 (in-bounds reads), evaluated on the 4 x 1 image `fileGray4` with blur factor 1/128
(radius 1): the view `src` has 4 bytes, and the blur pass reads index 4, the slide read of the
last iteration `p = N - r - 1 = 2` at pixel `p + r + 1 = 4`.  Not every index read is smaller
than `N * bytes_per_pixel`. -/
theorem slide_read_past_view :
    (src fileGray4).size = 4 ∧ num_pixels fileGray4 * bytes_per_pixel fileGray4 = 4 ∧
      2 * blur_range (1 / 128) + 1 ≤ num_pixels fileGray4 ∧
      ∃ ρ, main fileGray4 (1 / 128) = Outcome.exit_success ρ ∧ 4 ∈ ρ.reads ∧
        ¬ (∀ i, i ∈ ρ.reads → i < num_pixels fileGray4 * bytes_per_pixel fileGray4) := by
  have hb : bytes_per_pixel fileGray4 = 1 := by decide
  have hN : pixelProduct (image_width fileGray4) (image_height fileGray4) = 4 := by decide
  have hN' : num_pixels fileGray4 = 4 := by decide
  have hmem : 4 ∈ (blurPass 1 4 1 ((src fileGray4).read fileGray4)
      (List.replicate (src fileGray4).size 0)).reads :=
    blurPass_reads_past_view 1 4 1 _ _ (by decide) (by decide) (by decide)
  refine ⟨by decide, by decide, by rw [blur_range_small]; decide, _,
    main_of_supported fileGray4 _ (by decide), ?_, ?_⟩
  · simp only [hb, hN, blur_range_small]
    exact hmem
  · simp only [hb, hN, hN', blur_range_small]
    intro hall
    have := hall 4 hmem
    omega

/-- C18 (accumulator bounds), evaluated on `fileDeep`, a 1 x 1 image of type 2 with 40 bits per
pixel: the header passes the image-type check, `bytes_per_pixel` is 5, the seeding loop for
pixel 0 runs its body with `ch_idx = 0, 1, 2, 3, 4`, and the read of buffer offset 4, made in
the statement `row_total[ch_idx] += src[buffer_offset]` with `ch_idx = 4`, is in the trace of
the run. -/
theorem channel_index_out_of_range :
    image_type fileDeep = 2 ∧ bits_per_pixel fileDeep = 40 ∧ bytes_per_pixel fileDeep = 5 ∧
      ¬ (bytes_per_pixel fileDeep ≤ 4) ∧
      (∀ (src0 : ℕ → Byte) (st : BlurState),
        seedLoop (bytes_per_pixel fileDeep) 1 src0 st =
          seedStep 5 src0 0 4 (seedStep 5 src0 0 3 (seedStep 5 src0 0 2
            (seedStep 5 src0 0 1 (seedStep 5 src0 0 0 st))))) ∧
      get_buffer_offset 5 0 4 = 4 ∧
      ∃ ρ, main fileDeep 0 = Outcome.exit_success ρ ∧ 4 ∈ ρ.reads := by
  have hb : bytes_per_pixel fileDeep = 5 := by decide
  refine ⟨by decide, by decide, hb, by decide, ?_, by decide, _,
    main_of_supported fileDeep 0 (by decide), ?_⟩
  · intro src0 st
    rw [hb]
    simp [seedLoop, forRange, List.range']
  · simp only [hb, blur_range_zero, blurPass]
    apply blurLoop_reads_mono
    have h := seedLoop_reads 5 (sizeAdd (sizeMul 0 2) 1) ((src fileDeep).read fileDeep)
      { row_total := [0, 0, 0, 0], dst := List.replicate (src fileDeep).size 0, reads := [],
        writes := [] } 0 4 (by decide) (by decide)
    have ho : get_buffer_offset 5 0 4 = 4 := by decide
    rw [ho] at h
    exact h

/-! ## The radius as a function of the blur factor -/

theorem roundTiesEven_ge_floor (x : ℚ) : ⌊x⌋ ≤ roundTiesEven x := by
  unfold roundTiesEven
  simp only
  split_ifs <;> omega

/-- Between the powers `2 ^ e` and `2 ^ (e + 1)` the rounding works on the grid of multiples of
`2 ^ (e - (prec - 1))`. -/
theorem fpRound_of_binade (prec : ℕ) (x : ℚ) (e : ℤ) (h1 : (2:ℚ) ^ e ≤ x)
    (h2 : x < (2:ℚ) ^ (e + 1)) :
    fpRound prec x = (roundTiesEven (x / (2:ℚ) ^ (e - ((prec : ℤ) - 1))) : ℚ) *
      (2:ℚ) ^ (e - ((prec : ℤ) - 1)) := by
  have hx0 : 0 < x := lt_of_lt_of_le (by positivity) h1
  have hlog : Int.log 2 x = e := by
    apply le_antisymm
    · have := (Int.lt_zpow_iff_log_lt (b := 2) (by norm_num) hx0 (x := e + 1)).1
        (by exact_mod_cast h2)
      omega
    · exact (Int.zpow_le_iff_le_log (b := 2) (by norm_num) hx0).1 (by exact_mod_cast h1)
  unfold fpRound
  rw [if_neg hx0.ne', abs_of_pos hx0, hlog]

/-- Rounding never takes a value below a natural number that it is at least as large as (the
natural numbers below `2 ^ prec` are on the grid). -/
theorem fpRound_ge_natCast (prec n : ℕ) (x : ℚ) (hn : (n : ℚ) ≤ x) (hx : x < (2:ℚ) ^ prec) :
    (n : ℚ) ≤ fpRound prec x := by
  have hn0 : (0:ℚ) ≤ n := Nat.cast_nonneg n
  rcases eq_or_lt_of_le (le_trans hn0 hn) with hz | hx0
  · rw [← hz, fpRound_zero]; rw [← hz] at hn; exact hn
  · unfold fpRound
    rw [if_neg hx0.ne', abs_of_pos hx0]
    simp only
    have hlog : Int.log 2 x < prec :=
      (Int.lt_zpow_iff_log_lt (b := 2) (by norm_num) hx0 (x := (prec : ℤ))).1
        (by exact_mod_cast hx)
    obtain ⟨k, hk⟩ : ∃ k : ℕ, Int.log 2 x - ((prec : ℤ) - 1) = -(k : ℤ) :=
      ⟨(prec - 1 - Int.log 2 x).toNat, by omega⟩
    rw [hk, zpow_neg, zpow_natCast]
    have h2 : (0:ℚ) < (2:ℚ) ^ k := by positivity
    have hdiv : x / ((2:ℚ) ^ k)⁻¹ = x * 2 ^ k := by field_simp
    rw [hdiv]
    have hm : (((n * 2 ^ k : ℕ) : ℤ) : ℚ) ≤ x * 2 ^ k := by
      push_cast
      exact mul_le_mul_of_nonneg_right hn h2.le
    have hfl : ((n * 2 ^ k : ℕ) : ℤ) ≤ roundTiesEven (x * 2 ^ k) :=
      le_trans (Int.le_floor.2 hm) (roundTiesEven_ge_floor _)
    have hq : (((n * 2 ^ k : ℕ) : ℤ) : ℚ) ≤ (roundTiesEven (x * 2 ^ k) : ℚ) := by
      exact_mod_cast hfl
    have : (n : ℚ) = (((n * 2 ^ k : ℕ) : ℤ) : ℚ) * ((2:ℚ) ^ k)⁻¹ := by
      push_cast; field_simp
    rw [this]
    exact mul_le_mul_of_nonneg_right hq (by positivity)

theorem fpRound_factor_nonneg (f : ℚ) (h0 : 0 ≤ f) (h1 : f ≤ 1) :
    0 ≤ fpRound 24 (f * 150) := by
  have := fpRound_ge_natCast 24 0 (f * 150) (by push_cast; positivity)
    (by norm_num; linarith)
  simpa using this

theorem fpRound_factor_lt (f : ℚ) (h0 : 0 ≤ f) (h1 : f ≤ 1) :
    fpRound 24 (f * 150) < 151 := by
  rcases eq_or_lt_of_le h0 with hz | hpos
  · rw [← hz, zero_mul, fpRound_zero]; norm_num
  · have hx0 : 0 < f * 150 := by positivity
    have hx8 : f * 150 < 2 ^ (8:ℤ) := by norm_num; linarith
    have herr := fpRound_err 24 _ 8 hx0 hx8
    have he : (2:ℚ) ^ ((8:ℤ) - (24:ℕ) - 1) < 1 := by norm_num
    rw [abs_le] at herr
    linarith [herr.2]

/-- For a blur factor in `[0, 1]` the radius is the integer part of the `float` product. -/
theorem blur_range_eq_floor (f : ℚ) (h0 : 0 ≤ f) (h1 : f ≤ 1) :
    blur_range f = ⌊fpRound 24 (f * 150)⌋.toNat := by
  have hnn := fpRound_factor_nonneg f h0 h1
  have hlt : ⌊fpRound 24 (f * 150)⌋ < 151 := by
    rw [Int.floor_lt]; exact_mod_cast fpRound_factor_lt f h0 h1
  unfold blur_range floatToSize
  rw [if_pos hnn]
  unfold SIZE_MOD
  omega

theorem blur_range_half : blur_range (1 / 2) = 75 := by
  rw [blur_range_eq_floor _ (by norm_num) (by norm_num)]
  have h : (1 / 2 : ℚ) * 150 = ((75 : ℕ) : ℚ) := by norm_num
  rw [h, fpRound_natCast 24 75 (by norm_num)]
  simp

/-- The `float` nearest to 0.02, which is `5368709 / 2 ^ 28`, written `10737418 / 2 ^ 29` with
a 24-bit significand. -/
theorem float_near_two_hundredths :
    fpRound 24 (5368709 / 268435456) = 5368709 / 268435456 := by
  rw [fpRound_of_binade 24 _ (-6) (by norm_num) (by norm_num)]
  have h : (5368709 / 268435456 : ℚ) / (2:ℚ) ^ ((-6 : ℤ) - (((24 : ℕ) : ℤ) - 1)) =
      ((10737418 : ℤ) : ℚ) := by norm_num
  rw [h, roundTiesEven_intCast]
  norm_num

/-- The `float` product of that value and 150 is exactly 3, although the exact product is
smaller than 3. -/
theorem fpRound_product_rounds_up : fpRound 24 (5368709 / 268435456 * 150) = 3 := by
  rw [fpRound_of_binade 24 _ 1 (by norm_num) (by norm_num)]
  have h : (5368709 / 268435456 * 150 : ℚ) / (2:ℚ) ^ ((1 : ℤ) - (((24 : ℕ) : ℤ) - 1)) =
      402653175 / 32 := by norm_num
  rw [h]
  have hfl : ⌊(402653175 / 32 : ℚ)⌋ = 12582911 := by
    rw [Int.floor_eq_iff]; norm_num
  have hr : roundTiesEven (402653175 / 32) = 12582912 := by
    unfold roundTiesEven
    simp only [hfl]
    norm_num
  rw [hr]
  norm_num

theorem fpRound_factor_upper (f : ℚ) (h0 : 0 ≤ f) (h1 : f ≤ 1) :
    fpRound 24 (f * 150) ≤ f * 150 + 2 ^ (-(17:ℤ)) := by
  rcases eq_or_lt_of_le h0 with hz | hpos
  · rw [← hz, zero_mul, fpRound_zero]; positivity
  · have hx0 : 0 < f * 150 := by positivity
    have hx8 : f * 150 < 2 ^ (8:ℤ) := by norm_num; linarith
    have herr := fpRound_err 24 _ 8 hx0 hx8
    have he : (2:ℚ) ^ ((8:ℤ) - (24:ℕ) - 1) = 2 ^ (-(17:ℤ)) := by norm_num
    rw [he, abs_le] at herr
    linarith [herr.2]

/-- C13 as stated fails at the `float` nearest to 0.02, `f = 5368709 / 2 ^ 28`: it is a
`float` in `[0, 1]`, the exact product `f * 150` is a little below 3, so its integer part is 2,
but the `float` product is rounded to 3 and `blur_range` is 3. -/
theorem radius_mapping_counterexample :
    fpRound 24 (5368709 / 268435456) = 5368709 / 268435456 ∧
      (0 : ℚ) ≤ 5368709 / 268435456 ∧ (5368709 / 268435456 : ℚ) ≤ 1 ∧
      blur_range (5368709 / 268435456) = 3 ∧ ⌊(5368709 / 268435456 : ℚ) * 150⌋ = 2 ∧
      ¬ ((blur_range (5368709 / 268435456) : ℤ) = ⌊(5368709 / 268435456 : ℚ) * 150⌋) := by
  have hb : blur_range (5368709 / 268435456) = 3 := by
    rw [blur_range_eq_floor _ (by norm_num) (by norm_num), fpRound_product_rounds_up]
    simp
  have hfl : ⌊(5368709 / 268435456 : ℚ) * 150⌋ = 2 := by
    rw [Int.floor_eq_iff]; norm_num
  refine ⟨float_near_two_hundredths, by norm_num, by norm_num, hb, hfl, ?_⟩
  rw [hb, hfl]
  norm_num

/-- C13, amended (radius mapping).  For every blur factor `f` with `0 ≤ f ≤ 1`, `blur_range`
is the truncation of the `float` product of `f` and 150, not of the exact product: it is
`floor (f * 150)` or `floor (f * 150) + 1`, and it is `floor (f * 150)` whenever `f * 150` is
more than `2 ^ (-17)` below the next integer; hence `0 ≤ blur_range ≤ 150`; and `f = 0.5`
gives `blur_range = 75`. -/
theorem radius_mapping (f : ℚ) (h0 : 0 ≤ f) (h1 : f ≤ 1) :
    blur_range f = ⌊fpRound 24 (f * 150)⌋.toNat ∧
      ⌊f * 150⌋.toNat ≤ blur_range f ∧ blur_range f ≤ ⌊f * 150⌋.toNat + 1 ∧
      (f * 150 + 2 ^ (-(17:ℤ)) < ⌊f * 150⌋ + 1 → blur_range f = ⌊f * 150⌋.toNat) ∧
      blur_range f ≤ 150 ∧ blur_range (1 / 2) = 75 := by
  have hx0 : 0 ≤ f * 150 := by positivity
  have hfl0 : 0 ≤ ⌊f * 150⌋ := Int.floor_nonneg.2 hx0
  have hn : ((⌊f * 150⌋.toNat : ℕ) : ℚ) = (⌊f * 150⌋ : ℚ) := by
    have : ((⌊f * 150⌋.toNat : ℕ) : ℤ) = ⌊f * 150⌋ := Int.toNat_of_nonneg hfl0
    exact_mod_cast this
  have hle : (⌊f * 150⌋ : ℚ) ≤ f * 150 := Int.floor_le _
  have hlt : f * 150 < ⌊f * 150⌋ + 1 := Int.lt_floor_add_one _
  have hlow : ((⌊f * 150⌋.toNat : ℕ) : ℚ) ≤ fpRound 24 (f * 150) :=
    fpRound_ge_natCast 24 _ _ (by rw [hn]; exact hle) (by norm_num; linarith)
  have hup := fpRound_factor_upper f h0 h1
  have hsmall : (2:ℚ) ^ (-(17:ℤ)) < 1 := by norm_num
  have hfloor_low : ⌊f * 150⌋ ≤ ⌊fpRound 24 (f * 150)⌋ := by
    rw [Int.le_floor, ← hn]; exact hlow
  have hfloor_up : ⌊fpRound 24 (f * 150)⌋ < ⌊f * 150⌋ + 2 := by
    rw [Int.floor_lt]; push_cast; linarith
  have heq := blur_range_eq_floor f h0 h1
  refine ⟨heq, ?_, ?_, ?_, blur_range_le f h0 h1, blur_range_half⟩
  · rw [heq]; omega
  · rw [heq]; omega
  · intro hgap
    have : ⌊fpRound 24 (f * 150)⌋ < ⌊f * 150⌋ + 1 := by
      rw [Int.floor_lt]; push_cast; linarith
    rw [heq]; omega

/-- Witness for the amended C13 at the blur factor 1/128. -/
theorem radius_mapping_witness :
    blur_range (1 / 128) = ⌊fpRound 24 ((1 / 128 : ℚ) * 150)⌋.toNat ∧
      blur_range (1 / 128) ≤ 150 ∧ blur_range (1 / 2) = 75 :=
  have h := radius_mapping (1 / 128) (by norm_num) (by norm_num)
  ⟨h.1, h.2.2.2.2.1, h.2.2.2.2.2⟩

/-! ## The validation of the blur factor -/

/-- The validation lets a finite value through exactly when `strtof` stopped at the terminator
and the value is in `[0, 1]`; it does not look at how many characters were converted. -/
theorem parse_blur_factor_finite (arg : List Char) (q : ℚ) (e : ℕ) :
    parse_blur_factor arg ⟨FloatVal.finite q, some e⟩ =
        BlurFactorResult.accepted (FloatVal.finite q) ↔
      cstrAt arg e = Char.ofNat 0 ∧ 0 ≤ q ∧ q ≤ 1 := by
  simp only [parse_blur_factor, blur_factor_invalid, FloatVal.lt]
  by_cases h1 : cstrAt arg e = Char.ofNat 0 <;> by_cases h2 : q < 0 <;>
    by_cases h3 : (1:ℚ) < q <;> simp [h1, h2, h3, not_lt.1, le_of_lt]

/-- A NaN passes both comparisons of the validation. -/
theorem parse_blur_factor_nan (arg : List Char) (e : ℕ) (h : cstrAt arg e = Char.ofNat 0) :
    parse_blur_factor arg ⟨FloatVal.nan, some e⟩ = BlurFactorResult.accepted FloatVal.nan := by
  simp [parse_blur_factor, blur_factor_invalid, FloatVal.lt, h]

/-- C14 (blur-factor validation), evaluated on two argument strings.  For the empty string
`strtof` converts nothing: it returns 0 and leaves `end` at the start of the string, where the
terminator stands; the validation accepts the value 0.  For the string `nan`, `strtof` returns
a NaN and leaves `end` behind the three characters; both comparisons with a NaN are false, and
the validation accepts the NaN.  In neither case is the usage text printed. -/
theorem blur_factor_check_gaps :
    parse_blur_factor [] ⟨FloatVal.finite 0, some 0⟩ =
        BlurFactorResult.accepted (FloatVal.finite 0) ∧
      parse_blur_factor ['n', 'a', 'n'] ⟨FloatVal.nan, some 3⟩ =
        BlurFactorResult.accepted FloatVal.nan ∧
      blur_range 0 = 0 := by
  refine ⟨?_, ?_, blur_range_zero⟩
  · exact (parse_blur_factor_finite [] 0 0).2 ⟨rfl, le_refl _, by norm_num⟩
  · exact parse_blur_factor_nan _ 3 rfl

/-! ## Truncated input -/

/-- The seeding loop of the blur pass reads every channel of the first `2 * r + 1` pixels. -/
theorem blurPass_reads_seed (bpp N r : ℕ) (src : ℕ → Byte) (dst0 : List Byte) (px c : ℕ)
    (hpx : px < 2 * r + 1) (hc : c < bpp) (hoff : px * bpp + c < SIZE_MOD)
    (hr : 2 * r + 1 < SIZE_MOD) :
    px * bpp + c ∈ (blurPass bpp N r src dst0).reads := by
  have hrl : sizeAdd (sizeMul r 2) 1 = 2 * r + 1 := by
    rw [sizeMul_eq _ _ (by omega), sizeAdd_eq _ _ (by omega)]
    omega
  unfold blurPass
  simp only [hrl]
  apply blurLoop_reads_mono
  have h := seedLoop_reads bpp (2 * r + 1) src
    { row_total := [0, 0, 0, 0], dst := dst0, reads := [], writes := [] } px c hpx hc
  rw [get_buffer_offset_eq _ _ _ hoff] at h
  exact h

/-- The iteration of the main loop for pixel `p` reads every channel of pixel `p + r + 1`. -/
theorem blurPass_reads_slide (bpp N r : ℕ) (src : ℕ → Byte) (dst0 : List Byte) (p c : ℕ)
    (hp1 : r ≤ p) (hp2 : p + r < N) (hc : c < bpp) (hN : N * bpp + bpp < SIZE_MOD) :
    (p + r + 1) * bpp + c ∈ (blurPass bpp N r src dst0).reads := by
  have hNb : N ≤ N * bpp := Nat.le_mul_of_pos_right N (by omega)
  have hNlt : N < SIZE_MOD := by omega
  have hmul : (p + r + 1) * bpp ≤ N * bpp := Nat.mul_le_mul_right _ (by omega)
  unfold blurPass blurLoop
  simp only
  rw [sizeSub_eq N r (by omega) hNlt]
  apply forRange_establish (fun (t : BlurState) => (p + r + 1) * bpp + c ∈ t.reads) r (N - r) p
    _ _ hp1 (by omega)
  · intro st
    apply forRange_establish (fun (t : BlurState) => (p + r + 1) * bpp + c ∈ t.reads) 0 bpp c
      _ st (Nat.zero_le _) hc
    · intro t
      have hadd1 : sizeAdd p r = p + r := sizeAdd_eq _ _ (by omega)
      have hadd : sizeAdd (sizeAdd p r) 1 = p + r + 1 := by
        rw [hadd1, sizeAdd_eq _ _ (by omega)]
      have hoff : get_buffer_offset bpp (p + r + 1) c = (p + r + 1) * bpp + c :=
        get_buffer_offset_eq _ _ _ (by omega)
      simp [blurStep, hadd, hoff]
    · intro j t ht
      simp only [blurStep, List.mem_append]
      exact Or.inl ht
  · intro j st hst
    apply forRange_preserves (fun (t : BlurState) => (p + r + 1) * bpp + c ∈ t.reads)
    · intro k t ht
      simp only [blurStep, List.mem_append]
      exact Or.inl ht
    · exact hst

/-- When the window fits, the blur pass reads every byte of a view of `N` pixels. -/
theorem blurPass_reads_view (bpp N r : ℕ) (src : ℕ → Byte) (dst0 : List Byte) (i : ℕ)
    (hwin : 2 * r + 1 ≤ N) (hN : N * bpp + bpp < SIZE_MOD) (hi : i < N * bpp) :
    i ∈ (blurPass bpp N r src dst0).reads := by
  have hbpos : 0 < bpp := by
    rcases Nat.eq_zero_or_pos bpp with h | h
    · subst h; simp at hi
    · exact h
  have hq : i / bpp < N := (Nat.div_lt_iff_lt_mul hbpos).2 hi
  have hc : i % bpp < bpp := Nat.mod_lt _ hbpos
  have hidx : i / bpp * bpp + i % bpp = i := Nat.div_add_mod' i bpp
  have hNb : N ≤ N * bpp := Nat.le_mul_of_pos_right N hbpos
  rcases Nat.lt_or_ge (i / bpp) (2 * r + 1) with hs | hs
  · have h := blurPass_reads_seed bpp N r src dst0 (i / bpp) (i % bpp) hs hc (by omega)
      (by omega)
    rw [hidx] at h
    exact h
  · have h := blurPass_reads_slide bpp N r src dst0 (i / bpp - r - 1) (i % bpp) (by omega)
      (by omega) hc hN
    have hp : i / bpp - r - 1 + r + 1 = i / bpp := by omega
    rw [hp, hidx] at h
    exact h

/-- Every truncated file is read past its end.  If the image type is 2 or 3, the pixel count
fits an `int`, there is at least one byte per pixel, the window fits, and the buffer is shorter
than `image_data_offset + image_data_size`, then the check of line 43 passes and the blur pass
reads an element of the view `src` at which the file buffer has no byte. -/
theorem truncated_view_is_read (data : List Byte) (f : ℚ)
    (h : image_type data = 2 ∨ image_type data = 3)
    (hfit : image_width data * image_height data < 2147483648)
    (hb : 1 ≤ bytes_per_pixel data)
    (hwin : 2 * blur_range f + 1 ≤ image_width data * image_height data)
    (htrunc : data.length < image_data_offset data + image_data_size data) :
    ∃ ρ, main data f = Outcome.exit_success ρ ∧
      ∃ i, i < (src data).size ∧ i ∈ ρ.reads ∧ data[(src data).base + i]? = none := by
  refine ⟨_, main_of_supported data f h, ?_⟩
  have hN : pixelProduct (image_width data) (image_height data) =
      image_width data * image_height data := pixelProduct_eq _ _ hfit
  have hbpp : bytes_per_pixel data ≤ 31 := by
    have := byteAt_lt data (1 * 4 + 2 * 6)
    unfold bytes_per_pixel bits_per_pixel
    omega
  have hNb : image_width data * image_height data * bytes_per_pixel data ≤ 2147483648 * 31 :=
    Nat.mul_le_mul hfit.le hbpp
  have hsize : image_data_size data =
      image_width data * image_height data * bytes_per_pixel data := by
    unfold image_data_size num_pixels
    rw [pixelProduct_comm, hN, sizeMul_eq _ _ (by unfold SIZE_MOD; omega)]
  have hbase : (src data).base = image_data_offset data := rfl
  have hsz : (src data).size = image_data_size data := rfl
  have hge : image_width data * image_height data ≤
      image_width data * image_height data * bytes_per_pixel data :=
    Nat.le_mul_of_pos_right _ hb
  simp only [hN]
  rw [hbase, hsz]
  refine ⟨data.length - image_data_offset data, by omega, ?_, ?_⟩
  · apply blurPass_reads_view _ _ _ _ _ _ hwin (by unfold SIZE_MOD; omega)
    omega
  · rw [List.getElem?_eq_none_iff]
    omega

/-- C8 (truncated input), evaluated on `fileShort` with blur factor 1/128 (radius 1): the
image type is 3, the buffer has 20 bytes while `image_data_offset + image_data_size` is 22, and
yet the check of line 43 is the only one made and it passes; the seeding loop then reads
element 2 of the view `src`, which would be the file byte at offset 20, where the buffer has no
byte.  Decoding does not fail, and the blur pass reads past the end of the buffer. -/
theorem truncated_input_is_read_past_end :
    image_type fileShort = 3 ∧ fileShort.length = 20 ∧
      image_data_offset fileShort + image_data_size fileShort = 22 ∧
      (src fileShort).base = 18 ∧ (src fileShort).size = 4 ∧
      ∃ ρ, main fileShort (1 / 128) = Outcome.exit_success ρ ∧ 2 ∈ ρ.reads ∧
        fileShort[(src fileShort).base + 2]? = none := by
  refine ⟨by decide, by decide, by decide, by decide, by decide, _,
    main_of_supported fileShort _ (by decide), ?_, by decide⟩
  have h := blurPass_reads_seed (bytes_per_pixel fileShort)
    (pixelProduct (image_width fileShort) (image_height fileShort)) (blur_range (1 / 128))
    ((src fileShort).read fileShort) (List.replicate (src fileShort).size 0) 2 0
    (by rw [blur_range_small]; decide) (by decide) (by decide)
    (by rw [blur_range_small]; decide)
  have hidx : 2 * bytes_per_pixel fileShort + 0 = 2 := by decide
  rw [hidx] at h
  exact h

end TgaBlur
